import Mathlib

/-!
# opscript: the Bitcoin-Script specification builder (`spec/spec.go`) and the
code view (`gui/code.go`)

A shallow embedding of `cellsToOps` and of the map-building loop of
`NewFromBitcoinWiki`, and of the line navigation and `formatDisasm` of
`gui/code.go`, together with the Go library functions they call
(`strings.TrimSpace`, `strings.HasPrefix`, `strings.Split`, `strconv.Atoi`,
`strconv.Itoa`, `fmt.Sprintf` with `%d` and `%x`, and the two regular
expressions of the function).

Modelling conventions.
* A Go `string` is a `List Char`: the list of the code points of a valid UTF-8
  string (the cells come from an HTML parser, which only produces valid UTF-8).
* Go's `int` is the 64-bit signed integer; it is an `Int` here and every
  arithmetic result is wrapped with `wrap64`.
* A run-time panic (index out of range, `strings.Repeat` on a negative count)
  and a loop that never exits are the values of `Fault`; a call that returns
  normally is `Except.ok`.
* `cellsToOps` overwrites the elements of the slice it receives, so the
  embedding `cellsToOpsRun` returns the slice after the call next to the result;
  `formatDisasm` writes through its `*int`, so its embedding returns the new
  value of the counter next to the result.
-/

set_option linter.dupNamespace false

namespace Opscript

/-- A Go string, as the list of its code points. -/
abbrev Str := List Char

/-! ## Go library functions -/

/-- `unicode.IsSpace`: the Latin-1 white space of Go plus the runes of the
Unicode `White_Space` table. -/
def isSpace (c : Char) : Bool :=
  let n := c.toNat
  (9 ≤ n && n ≤ 13) || n == 32 || n == 133 || n == 160 || n == 5760 ||
  (8192 ≤ n && n ≤ 8202) || n == 8232 || n == 8233 || n == 8239 || n == 8287 ||
  n == 12288

/-- `strings.TrimSpace`: leading and trailing white space removed. -/
def TrimSpace (s : Str) : Str :=
  (s.dropWhile isSpace).rdropWhile isSpace

/-- `strings.HasPrefix s pre`. -/
def HasPrefix (s pre : Str) : Bool :=
  pre.isPrefixOf s

/-- Puts a character in front of the first piece of a split. -/
def consHead (c : Char) : List Str → List Str
  | [] => [[c]]
  | p :: ps => (c :: p) :: ps

/-- The scan of `strings.Split` for a non-empty separator: `skip` counts the
characters of a separator just found that are still to be passed over. -/
def splitFrom (sep : Str) : Nat → Str → List Str
  | _, [] => [[]]
  | skip + 1, _ :: cs => splitFrom sep skip cs
  | 0, c :: cs =>
    if HasPrefix (c :: cs) sep then [] :: splitFrom sep (sep.length - 1) cs
    else consHead c (splitFrom sep 0 cs)

/-- `strings.Split s sep` for a non-empty `sep` (the function only uses the
separators `", "` and `"-"`): the pieces between the non-overlapping
occurrences of `sep`, found from left to right. -/
def Split (s sep : Str) : List Str :=
  splitFrom sep 0 s

/-- The scan of `strings.Count`, with the same `skip` counter as `splitFrom`. -/
def countFrom (sep : Str) : Nat → Str → Nat
  | _, [] => 0
  | skip + 1, _ :: cs => countFrom sep skip cs
  | 0, c :: cs =>
    if HasPrefix (c :: cs) sep then countFrom sep (sep.length - 1) cs + 1
    else countFrom sep 0 cs

/-- `strings.Count s sep` for a non-empty `sep`: the number of non-overlapping
occurrences of `sep` in `s`. -/
def Count (s sep : Str) : Nat :=
  countFrom sep 0 s

/-- Largest value of Go's `int` on a 64-bit platform. -/
def maxInt : Int := 9223372036854775807

/-- Two's-complement wrap-around of 64-bit signed arithmetic. -/
def wrap64 (x : Int) : Int :=
  (x + 9223372036854775808) % 18446744073709551616 - 9223372036854775808

/-- Reads a run of ASCII digits as a number, `none` at any other character. -/
def parseDigits : Nat → Str → Option Nat
  | acc, [] => some acc
  | acc, c :: cs =>
    if c.isDigit then parseDigits (acc * 10 + (c.toNat - 48)) cs else none

/-- `strconv.Atoi`: an optional sign, then at least one ASCII digit, and a
value that fits Go's `int`; `none` is the error return. -/
def Atoi (s : Str) : Option Int :=
  let neg : Bool := s.head? == some '-'
  let signed : Bool := neg || s.head? == some '+'
  let body := if signed then s.tail else s
  if body.isEmpty then none
  else
    match parseDigits 0 body with
    | none => none
    | some n =>
      if neg then (if n ≤ 9223372036854775808 then some (-(n : Int)) else none)
      else (if n ≤ 9223372036854775807 then some (n : Int) else none)

/-- The verb `%d` of `fmt.Sprintf`, which is also `strconv.Itoa`. -/
def fmtD (i : Int) : Str :=
  if i < 0 then '-' :: Nat.toDigits 10 i.natAbs else Nat.toDigits 10 i.natAbs

/-- The verb `%x` of `fmt.Sprintf` on an `int`: lower-case hexadecimal, a
negative value printed as `-` and the magnitude. -/
def fmtX (i : Int) : Str :=
  if i < 0 then '-' :: Nat.toDigits 16 i.natAbs else Nat.toDigits 16 i.natAbs

/-- The literal `OP_` both regular expressions and the prefix test start with. -/
def opPrefix : Str := ['O', 'P', '_']

/-- The class `\w` of Go regular expressions: `[0-9A-Za-z_]`. -/
def isWord (c : Char) : Bool :=
  c.isAlphanum || c == '_'

/-- The character class `[\w_-]` of the `cleanWord` expression: a word
character, the underscore or the hyphen. -/
def isWordOrHyphen (c : Char) : Bool :=
  isWord c || c == '_' || c == '-'

/-- `cleanWord.FindString` for `OP_[\w_-]+`: the leftmost match, the class
taken greedily; the empty string when nothing matches. -/
def cleanWord : Str → Str
  | [] => []
  | c :: cs =>
    let run := ((c :: cs).drop 3).takeWhile isWordOrHyphen
    if HasPrefix (c :: cs) opPrefix && !run.isEmpty then opPrefix ++ run
    else cleanWord cs

/-- `opNumber.FindStringSubmatch` for `(OP_[A-Z]*)(\d+)`: `none` stands for the
nil slice of a failed match, `some (m0, m1, m2)` for the three-element slice of
the whole match and the two groups. The capitals are taken greedily and no
shorter run can be followed by a digit, so the match at a position is decided
by the longest run. -/
def opNumber : Str → Option (Str × Str × Str)
  | [] => none
  | c :: cs =>
    let rest := (c :: cs).drop 3
    let letters := rest.takeWhile Char.isUpper
    let digits := (rest.dropWhile Char.isUpper).takeWhile Char.isDigit
    if HasPrefix (c :: cs) opPrefix && !digits.isEmpty then
      some (opPrefix ++ letters ++ digits, opPrefix ++ letters, digits)
    else opNumber cs

/-! ## The data model -/

/-- The `Opcode` struct. -/
structure Opcode where
  Word : Str
  WordAlt : Str
  Opcode : Str
  Input : Str
  Output : Str
  Short : Str
  deriving DecidableEq, Repr

/-- The ways a call can fail to return: an index-out-of-range panic, the range
loop never reaching its exit test, or the panic of `strings.Repeat` on a
negative count. -/
inductive Fault where
  | indexOutOfRange
  | loopNeverExits
  | negativeRepeatCount
  deriving DecidableEq, Repr

/-- Indexing `xs[i]` with Go's bounds check. -/
def index {α : Type} (xs : List α) (i : Nat) : Except Fault α :=
  match xs.get? i with
  | some x => Except.ok x
  | none => Except.error Fault.indexOutOfRange

/-! ## `cellsToOps` -/

/-- The loop of lines 206-219, `for i := leftN; i <= rightN; i++`: one Opcode
per `i`, in ascending order, appended to `ops`. It is entered with
`0 ≤ leftN`; it runs `rightN - leftN + 1` times when `leftN ≤ rightN < maxInt`
and not at all when `rightN < leftN`. With `rightN = maxInt` the test
`i <= rightN` holds for every `int`, so the loop never exits. -/
def rangeLoop (leftPre : Str) (leftN rightN opcodeLeft outputLeft : Int)
    (isEmptyOutput : Bool) (input short : Str) (ops : List Opcode) :
    Except Fault (List Opcode) :=
  if leftN ≤ rightN ∧ rightN = maxInt then Except.error Fault.loopNeverExits
  else
    Except.ok (ops ++ (List.range (rightN + 1 - leftN).toNat).map fun (k : Nat) =>
      let i : Int := leftN + (k : Int)
      { Word := leftPre ++ fmtD i
        WordAlt := []
        Opcode := ['0', 'x'] ++ fmtX (wrap64 (wrap64 (opcodeLeft + i) - leftN))
        Input := input
        Output :=
          if isEmptyOutput then [] else fmtD (wrap64 (wrap64 (outputLeft + i) - leftN))
        Short := short })

/-- Lines 151-220: the range expansion, entered when `rnge` has two elements.
Every failed parse returns the `ops` built so far. -/
def expandRange (leftOp rightOp opcodeDec input output short : Str)
    (ops : List Opcode) : Except Fault (List Opcode) :=
  match opNumber leftOp, opNumber rightOp with
  | some (_, leftPre, leftDigits), some (_, _, rightDigits) =>
    match Atoi leftDigits with
    | none => Except.ok ops
    | some leftN =>
      match Atoi rightDigits with
      | none => Except.ok ops
      | some rightN =>
        match Split opcodeDec ['-'] with
        | [opcodes0, _] =>
          match Atoi opcodes0 with
          | none => Except.ok ops
          | some opcodeLeft =>
            if output.length = 0 then
              rangeLoop leftPre leftN rightN opcodeLeft 0 true input short ops
            else
              match Split output ['-'] with
              | [outputs0, _] =>
                match Atoi outputs0 with
                | none => Except.ok ops
                | some outputLeft =>
                  rangeLoop leftPre leftN rightN opcodeLeft outputLeft false input short ops
              | _ => Except.ok ops
        | _ => Except.ok ops
  | _, _ => Except.ok ops

/-- Lines 119-149: the Opcodes of the single-name and alias-pair branches. -/
def namedOps (alts : List Str) (opcode input output short : Str) : List Opcode :=
  match alts with
  | [a0] =>
    [{ Word := cleanWord a0, WordAlt := [], Opcode := opcode
       Input := input, Output := output, Short := short }]
  | [a0, a1] =>
    [{ Word := cleanWord a0, WordAlt := cleanWord a1, Opcode := opcode
       Input := input, Output := output, Short := short },
     { Word := cleanWord a1, WordAlt := cleanWord a0, Opcode := opcode
       Input := input, Output := output, Short := short }]
  | _ => []

/-- Lines 107-222, after the prefix test: classification of the name cell and
the three branches. -/
def classify (word opcodeDec opcode input output short : Str) :
    Except Fault (List Opcode) :=
  let alts := Split word [',', ' ']
  let rnge := Split word ['-']
  if alts.length = 2 ∧ rnge.length = 2 then
    match index alts 1, index (Split opcodeDec [',', ' ']) 1 with
    | Except.ok alts1, Except.ok opcodeDec1 =>
      let ops := namedOps [alts.headD []] opcode input output short
      match Split alts1 ['-'] with
      | [leftOp, rightOp] =>
        expandRange leftOp rightOp opcodeDec1 input output short ops
      | _ => Except.ok ops
    | _, _ => Except.error Fault.indexOutOfRange
  else
    let ops := namedOps alts opcode input output short
    match rnge with
    | [leftOp, rightOp] => expandRange leftOp rightOp opcodeDec input output short ops
    | _ => Except.ok ops

/-- Lines 92-222 of `cellsToOps`, run on the slice the trimming loop left. -/
def cellsToOpsBody (cells : List Str) : Except Fault (List Opcode) :=
  match index cells 0, index cells 1, index cells 2, index cells (cells.length - 1) with
  | Except.ok word, Except.ok opcodeDec, Except.ok opcode, Except.ok short =>
    let input := if cells.length = 6 then cells.getD 3 [] else []
    let output := if cells.length = 6 then cells.getD 4 [] else []
    if !HasPrefix word opPrefix then Except.ok []
    else classify word opcodeDec opcode input output short
  | _, _, _, _ => Except.error Fault.indexOutOfRange

/-- A call of `cellsToOps`: the caller's slice as the call leaves it, and the
result. An empty slice returns at once; otherwise every element is first
overwritten by its trimmed value (lines 88-90). -/
def cellsToOpsRun (cells : List Str) : List Str × Except Fault (List Opcode) :=
  if cells.length = 0 then (cells, Except.ok [])
  else (cells.map TrimSpace, cellsToOpsBody (cells.map TrimSpace))

/-- The value `cellsToOps cells` returns (or the fault that stops it). -/
def cellsToOps (cells : List Str) : Except Fault (List Opcode) :=
  (cellsToOpsRun cells).2

/-! ## The map-building loop of `NewFromBitcoinWiki` -/

/-- The `Script` map, as the list of its entries (key, value). -/
abbrev Script := List (Str × Opcode)

/-- The assignment `spec[k] = v`: an earlier entry for `k` is replaced. -/
def Script.set (spec : Script) (k : Str) (v : Opcode) : Script :=
  (k, v) :: spec.filter fun e => e.1 != k

/-- Lines 72-74: `for _, op := range ops { spec[op.Word] = op }`. -/
def insertOps (spec : Script) (ops : List Opcode) : Script :=
  ops.foldl (fun m op => m.set op.Word op) spec

/-- Lines 61-75 over the rows of the scraped tables, in document order: a row
without cells is passed over, the Opcodes of every other row are stored. A
panic of `cellsToOps` stops the build. -/
def scrapeRows : Script → List (List Str) → Except Fault Script
  | spec, [] => Except.ok spec
  | spec, cells :: rows =>
    if cells.length = 0 then scrapeRows spec rows
    else
      match cellsToOps cells with
      | Except.ok ops => scrapeRows (insertOps spec ops) rows
      | Except.error e => Except.error e

/-- The part of `NewFromBitcoinWiki` after the page is fetched: `tables` holds,
for each `table.wikitable` of the page, the cell texts of its rows. Only the
first `totalTables = 10` tables are read, into an empty map. -/
def NewFromBitcoinWiki (tables : List (List (List Str))) : Except Fault Script :=
  scrapeRows [] (tables.take 10).flatten

/-- Every Opcode the rows produce, in the order the loop stores them. -/
def emitted (rows : List (List Str)) : List Opcode :=
  rows.flatMap fun cells =>
    match cellsToOps cells with
    | Except.ok ops => ops
    | Except.error _ => []

/-- The `input` variable of a row (lines 92-99): the trimmed fourth cell of a
six-cell row, empty for any other cell count. -/
def rowInput (cells : List Str) : Str :=
  if cells.length = 6 then TrimSpace (cells.getD 3 []) else []

/-- The `output` variable of a row (lines 92-99): the trimmed fifth cell of a
six-cell row, empty for any other cell count. -/
def rowOutput (cells : List Str) : Str :=
  if cells.length = 6 then TrimSpace (cells.getD 4 []) else []

/-- The `short` variable of a row (line 100): the trimmed last cell. -/
def rowShort (cells : List Str) : Str :=
  TrimSpace (cells.getLastD [])

/-- An Opcode of the range expansion: its Word starts with `OP_`, its WordAlt
is empty and its code starts with `0x`. -/
def Expanded (op : Opcode) : Prop :=
  HasPrefix op.Word opPrefix = true ∧ op.WordAlt = [] ∧
    HasPrefix op.Opcode ['0', 'x'] = true

/-- What the map holds for `k` after `ops` are stored: the last of them named
`k`, or the earlier entry when none is. -/
def lastNamed (ops : List Opcode) (k : Str) (earlier : Option Opcode) : Option Opcode :=
  match ops.reverse.find? fun op => op.Word == k with
  | some op => some op
  | none => earlier

/-- The invariant of the map-building loop: keys are not repeated, and an
entry is stored under its own Word. -/
def WellKeyed (spec : Script) : Prop :=
  (spec.map Prod.fst).Nodup ∧ ∀ e ∈ spec, e.2.Word = e.1

/-- The Opcode the range loop builds in its `k`-th round, `i = leftN + k`
(lines 207-216). -/
def rangeOp (leftPre : Str) (leftN opcodeLeft outputLeft : Int) (isEmptyOutput : Bool)
    (input short : Str) (k : Nat) : Opcode :=
  { Word := leftPre ++ fmtD (leftN + (k : Int))
    WordAlt := []
    Opcode := ['0', 'x'] ++ fmtX (wrap64 (wrap64 (opcodeLeft + (leftN + (k : Int))) - leftN))
    Input := input
    Output :=
      if isEmptyOutput then []
      else fmtD (wrap64 (wrap64 (outputLeft + (leftN + (k : Int))) - leftN))
    Short := short }

/-- The name candidates the single-name and alias branches read (lines
108-115): the parts of the name cell between `", "`, cut down to the first
part when the cell has the form `A, B-C`. -/
def altsOf (word : Str) : List Str :=
  if (Split word [',', ' ']).length = 2 ∧ (Split word ['-']).length = 2 then
    [(Split word [',', ' ']).headD []]
  else Split word [',', ' ']

/-- The value of a digit character of `Nat.digitChar`, for bases up to 16. -/
def digitValue (c : Char) : Nat :=
  if c.isDigit then c.toNat - 48 else c.toNat - 87

/-- Reads a digit string in base `b`, most significant digit first. -/
def readDigits (b : Nat) : Nat → Str → Nat
  | acc, [] => acc
  | acc, c :: cs => readDigits b (acc * b + digitValue c) cs

/-! ## `gui/code.go`: navigation over code lines -/

/-- The `codeLine` struct. -/
structure codeLine where
  isSeparator : Bool
  lineIdx : Int
  text : Str
  deriving DecidableEq, Repr

/-- The zero value `codeLine{}`. -/
def codeLine.zero : codeLine := ⟨false, 0, []⟩

/-- The type `codeLines`, a slice of `codeLine`. -/
abbrev codeLines := List codeLine

/-- The method `first`: the loop returns at the first line that is no
separator; without such a line the result is `cls[0]`. -/
def codeLines.first (cls : codeLines) : codeLine :=
  match cls with
  | [] => codeLine.zero
  | c :: _ =>
    match cls.find? fun l => !l.isSeparator with
    | some l => l
    | none => c

/-- The method `last`: the loop reads `cls[l-i-1]` for `i = 0, 1, ...`, the
lines from the end, and returns at the first that is no separator; without
such a line the result is `cls[l-1]`. -/
def codeLines.last (cls : codeLines) : codeLine :=
  match cls.reverse with
  | [] => codeLine.zero
  | c :: _ =>
    match cls.reverse.find? fun l => !l.isSeparator with
    | some l => l
    | none => c

/-- The method `next`: the first line that is no separator and lies after
`curLine`; without such a line the result is `cls[len(cls)-1]`. -/
def codeLines.next (cls : codeLines) (curLine : Int) : codeLine :=
  match cls.reverse with
  | [] => codeLine.zero
  | c :: _ =>
    match cls.find? fun l => !l.isSeparator && decide (l.lineIdx > curLine) with
    | some l => l
    | none => c

/-- The method `previous`: reading from the end, the first line that is no
separator and lies before `curLine`; without such a line the result is
`cls[0]`. -/
def codeLines.previous (cls : codeLines) (curLine : Int) : codeLine :=
  match cls with
  | [] => codeLine.zero
  | c :: _ =>
    match cls.reverse.find? fun l => !l.isSeparator && decide (l.lineIdx < curLine) with
    | some l => l
    | none => c

/-! ## `gui/code.go`: `formatDisasm` -/

/-- The length of a match of `OP_DATA_\d+ ` at the start of `s`: the literal,
the longest run of digits (no shorter run can be followed by a space), and a
space. -/
def opDataMatch (s : Str) : Option Nat :=
  let digits := (s.drop 8).takeWhile Char.isDigit
  if HasPrefix s ['O', 'P', '_', 'D', 'A', 'T', 'A', '_'] && !digits.isEmpty &&
      (s.drop (8 + digits.length)).head? == some ' ' then
    some (8 + digits.length + 1)
  else none

/-- `opData.ReplaceAllString(line, "")`: every match of `OP_DATA_\d+ `, found
from left to right without overlap, is removed; `skip` counts the characters
of a match still to be passed over. -/
def removeOpData : Nat → Str → Str
  | _, [] => []
  | skip + 1, _ :: cs => removeOpData skip cs
  | 0, c :: cs =>
    match opDataMatch (c :: cs) with
    | some n => removeOpData (n - 1) cs
    | none => c :: removeOpData 0 cs

/-- Cuts a string at its first `:`. -/
def cutColon : Str → Option (Str × Str)
  | [] => none
  | c :: cs =>
    if c = ':' then some ([], cs)
    else
      match cutColon cs with
      | some (a, b) => some (c :: a, b)
      | none => none

/-- `strings.SplitN(line, ":", 3)`: at most three pieces, the last one the
unsplit rest. -/
def SplitN3 (s : Str) : List Str :=
  match cutColon s with
  | none => [s]
  | some (a, r) =>
    match cutColon r with
    | none => [a, r]
    | some (b, r2) => [a, b, r2]

/-- `strings.Repeat(s, count)`: a negative count panics. (The memory a very
long result needs is not modelled.) -/
def Repeat (s : Str) (count : Int) : Except Fault Str :=
  if count < 0 then Except.error Fault.negativeRepeatCount
  else Except.ok (List.replicate count.toNat s).flatten

/-- The variable `code` of `formatDisasm` (lines 80-88): the trimmed third
piece of the line after the `OP_DATA_` pushes are removed; `none` when the
line has fewer than three pieces. -/
def codeOf (line : Str) : Option Str :=
  match SplitN3 (removeOpData 0 line) with
  | [_, _, p2] => some (TrimSpace p2)
  | _ => none

/-- A call `formatDisasm(line, &indentation, indentationStep)`: the value of
`*indentation` after the call, and the string returned or the panic. -/
def formatDisasm (line : Str) (indentation indentationStep : Int) :
    Int × Except Fault Str :=
  match codeOf line with
  | none => (indentation, Except.ok (removeOpData 0 line))
  | some code =>
    let ind1 :=
      if HasPrefix code "OP_ELSE".toList || HasPrefix code "OP_ENDIF".toList then
        wrap64 (indentation - indentationStep)
      else indentation
    match Repeat [' '] ind1 with
    | Except.error e => (ind1, Except.error e)
    | Except.ok pad =>
      let ind2 :=
        if HasPrefix code "OP_IF".toList || HasPrefix code "OP_NOTIF".toList ||
            HasPrefix code "OP_ELSE".toList then
          wrap64 (ind1 + indentationStep)
        else ind1
      (ind2, Except.ok ([' ', ' '] ++ pad ++ code))

/-- Folding `formatDisasm` over lines with one indentation counter: the
counter after the last call that ran, and the strings returned or the first
panic. -/
def formatLines : List Str → Int → Int → Int × Except Fault (List Str)
  | [], indentation, _ => (indentation, Except.ok [])
  | line :: lines, indentation, indentationStep =>
    match formatDisasm line indentation indentationStep with
    | (ind, Except.error e) => (ind, Except.error e)
    | (ind, Except.ok out) =>
      match formatLines lines ind indentationStep with
      | (final, Except.ok outs) => (final, Except.ok (out :: outs))
      | (final, Except.error e) => (final, Except.error e)

/-- Whether the code of a line starts with `pre`; `false` for a line without
three pieces. -/
def codeStartsWith (pre line : Str) : Bool :=
  match codeOf line with
  | some code => HasPrefix code pre
  | none => false

/-- The lines `x` of `cls` on which `p` holds and before which it holds nowhere. -/
def Earliest (p : codeLine → Bool) (cls : codeLines) (x : codeLine) : Prop :=
  ∃ pre post, cls = pre ++ x :: post ∧ p x = true ∧ ∀ y ∈ pre, p y = false

/-- The lines `x` of `cls` on which `p` holds and after which it holds nowhere. -/
def Latest (p : codeLine → Bool) (cls : codeLines) (x : codeLine) : Prop :=
  ∃ pre post, cls = pre ++ x :: post ∧ p x = true ∧ ∀ y ∈ post, p y = false

/-- The number of lines whose code starts with `OP_IF` or `OP_NOTIF`. -/
def opening (lines : List Str) : Nat :=
  lines.countP fun l => codeStartsWith "OP_IF".toList l || codeStartsWith "OP_NOTIF".toList l

/-- The number of lines whose code starts with `OP_ENDIF`. -/
def closing (lines : List Str) : Nat :=
  lines.countP fun l => codeStartsWith "OP_ENDIF".toList l

deriving instance DecidableEq for Except

/-! ## Lemmas on the library functions -/

theorem TrimSpace_idem (s : Str) : TrimSpace (TrimSpace s) = TrimSpace s := by
  unfold TrimSpace
  have key : ∀ t : Str, (∀ c, t.head? = some c → isSpace c = false) →
      (t.rdropWhile isSpace).dropWhile isSpace = t.rdropWhile isSpace := by
    intro t ht
    cases t with
    | nil => simp
    | cons a t =>
      have ha : isSpace a = false := ht a rfl
      have hne : (a :: t).rdropWhile isSpace ≠ [] := by
        intro h
        have := (List.rdropWhile_eq_nil_iff).1 h a (List.mem_cons_self _ _)
        simp [ha] at this
      have hpre : (a :: t).rdropWhile isSpace <+: a :: t := List.rdropWhile_prefix _ _
      obtain ⟨r, hr⟩ := hpre
      cases hd : (a :: t).rdropWhile isSpace with
      | nil => exact absurd hd hne
      | cons b u =>
        rw [hd] at hr
        have hb : b = a := by
          simp at hr
          exact hr.1
        subst hb
        simp [List.dropWhile, ha]
  have hhead : ∀ c, (s.dropWhile isSpace).head? = some c → isSpace c = false := by
    intro c hc
    have := List.head?_dropWhile_not isSpace s
    rw [hc] at this
    simpa using this
  rw [key _ hhead, List.rdropWhile_idempotent]

theorem splitFrom_of_not_mem (a : Char) (t s : Str) (h : a ∉ s) :
    splitFrom (a :: t) 0 s = [s] := by
  induction s with
  | nil => rfl
  | cons c cs ih =>
    have hc : a ≠ c := fun e => h (e ▸ List.mem_cons_self _ _)
    have hcs : a ∉ cs := fun m => h (List.mem_cons_of_mem _ m)
    simp [splitFrom, HasPrefix, List.isPrefixOf, hc, ih hcs, consHead]

theorem Split_of_not_mem (a : Char) (t s : Str) (h : a ∉ s) :
    Split s (a :: t) = [s] :=
  splitFrom_of_not_mem a t s h

theorem Split_hyphen_append (x y : Str) (h : '-' ∉ x) :
    Split (x ++ '-' :: y) ['-'] = x :: Split y ['-'] := by
  unfold Split
  induction x with
  | nil => simp [splitFrom, HasPrefix, List.isPrefixOf]
  | cons c cs ih =>
    have hc : '-' ≠ c := fun e => h (e ▸ List.mem_cons_self _ _)
    have hcs : '-' ∉ cs := fun m => h (List.mem_cons_of_mem _ m)
    simp [splitFrom, HasPrefix, List.isPrefixOf, hc, ih hcs, consHead]

theorem length_splitFrom (sep : Str) (k : Nat) (s : Str) :
    (splitFrom sep k s).length = countFrom sep k s + 1 := by
  induction s generalizing k with
  | nil => cases k <;> simp [splitFrom, countFrom]
  | cons c cs ih =>
    cases k with
    | succ k => simp [splitFrom, countFrom, ih]
    | zero =>
      simp only [splitFrom, countFrom]
      split
      · simp [ih]
      · have h0 := ih 0
        cases hs : splitFrom sep 0 cs with
        | nil => rw [hs] at h0; simp at h0
        | cons p ps => rw [hs] at h0; simpa [consHead] using h0

theorem length_Split (s sep : Str) : (Split s sep).length = Count s sep + 1 :=
  length_splitFrom sep 0 s

/-! ## Unfolding a call on a row of at least three cells -/

theorem TrimSpace_nil : TrimSpace [] = [] := rfl

theorem getD_map_TrimSpace (l : List Str) (i : Nat) :
    (l.map TrimSpace).getD i [] = TrimSpace (l.getD i []) := by
  simp only [List.getD_eq_getElem?_getD, List.getElem?_map]
  cases l[i]? <;> simp [TrimSpace_nil]

theorem index_last (a b c : Str) (rest : List Str) :
    index (a :: b :: c :: rest) ((a :: b :: c :: rest).length - 1) =
      Except.ok ((a :: b :: c :: rest).getLastD []) := by
  have h : (a :: b :: c :: rest).get? ((a :: b :: c :: rest).length - 1) =
      some ((a :: b :: c :: rest).getLastD []) := by
    rw [List.get?_eq_getElem?, ← List.getLast?_eq_getElem?, List.getLastD_eq_getLast?,
      List.getLast?_eq_getLast _ (List.cons_ne_nil _ _)]
    simp
  simp only [index, h]

theorem getLastD_map_TrimSpace (l : List Str) :
    (l.map TrimSpace).getLastD [] = TrimSpace (l.getLastD []) := by
  rw [List.getLastD_eq_getLast?, List.getLastD_eq_getLast?, List.getLast?_map]
  cases l.getLast? <;> simp [TrimSpace_nil]

theorem cellsToOpsBody_cons3 (a b c : Str) (rest : List Str) :
    cellsToOpsBody (a :: b :: c :: rest) =
      if !HasPrefix a opPrefix then Except.ok []
      else classify a b c
        (if (a :: b :: c :: rest).length = 6 then (a :: b :: c :: rest).getD 3 [] else [])
        (if (a :: b :: c :: rest).length = 6 then (a :: b :: c :: rest).getD 4 [] else [])
        ((a :: b :: c :: rest).getLastD []) := by
  unfold cellsToOpsBody
  rw [index_last]
  rfl

/-- A call on a row of at least three cells: no index fails in lines 92-100,
and the call is the prefix test followed by `classify` on the trimmed cells. -/
theorem cellsToOps_cons3 (c0 c1 c2 : Str) (rest : List Str) :
    cellsToOps (c0 :: c1 :: c2 :: rest) =
      if !HasPrefix (TrimSpace c0) opPrefix then Except.ok []
      else classify (TrimSpace c0) (TrimSpace c1) (TrimSpace c2)
        (rowInput (c0 :: c1 :: c2 :: rest)) (rowOutput (c0 :: c1 :: c2 :: rest))
        (rowShort (c0 :: c1 :: c2 :: rest)) := by
  have hg := getLastD_map_TrimSpace (c0 :: c1 :: c2 :: rest)
  have h3 := getD_map_TrimSpace (c0 :: c1 :: c2 :: rest) 3
  have h4 := getD_map_TrimSpace (c0 :: c1 :: c2 :: rest) 4
  have hlen : (List.map TrimSpace (c0 :: c1 :: c2 :: rest)).length =
      (c0 :: c1 :: c2 :: rest).length := List.length_map _ _
  have hne : ¬ (c0 :: c1 :: c2 :: rest).length = 0 := by simp
  simp only [cellsToOps, cellsToOpsRun, if_neg hne, rowInput, rowOutput, rowShort]
  rw [← hg, ← h3, ← h4, ← hlen]
  exact cellsToOpsBody_cons3 _ _ _ _

/-! ## The two regular expressions -/

theorem cleanWord_opPrefix_append (w : Str) (hw : w ≠ [])
    (hall : ∀ c ∈ w, isWordOrHyphen c = true) :
    cleanWord (opPrefix ++ w) = opPrefix ++ w := by
  have ht : w.takeWhile isWordOrHyphen = w := List.takeWhile_eq_self_iff.2 hall
  have he : (w.isEmpty) = false := by
    cases w with
    | nil => exact absurd rfl hw
    | cons a w => rfl
  show cleanWord ('O' :: ('P' :: '_' :: w)) = opPrefix ++ w
  simp [cleanWord, HasPrefix, opPrefix, ht, he]

theorem cleanWord_empty_or_prefix (s : Str) :
    cleanWord s = [] ∨ HasPrefix (cleanWord s) opPrefix = true := by
  induction s with
  | nil => left; rfl
  | cons c cs ih =>
    unfold cleanWord
    simp only []
    split
    · right
      simp [HasPrefix, opPrefix]
    · exact ih

/-! ## Rows that are not opcode rows, single names, alias pairs -/

theorem isWord_ne_comma (c : Char) (h : isWord c = true) : c ≠ ',' := by
  rintro rfl
  revert h
  decide

theorem isWord_ne_hyphen (c : Char) (h : isWord c = true) : c ≠ '-' := by
  rintro rfl
  revert h
  decide

theorem classify_single (word opcodeDec opcode input output short : Str)
    (hc : ',' ∉ word) (hh : '-' ∉ word) :
    classify word opcodeDec opcode input output short =
      Except.ok [{ Word := cleanWord word, WordAlt := [], Opcode := opcode
                   Input := input, Output := output, Short := short }] := by
  simp [classify, Split_of_not_mem ',' [' '] word hc, Split_of_not_mem '-' [] word hh,
    namedOps]

theorem list_length_two {α : Type} (l : List α) (h : l.length = 2) :
    ∃ a b, l = [a, b] := by
  match l, h with
  | [a, b], _ => exact ⟨a, b, rfl⟩

theorem classify_alias (word opcodeDec opcode input output short : Str)
    (hc : Count word [',', ' '] = 1) (hh : '-' ∉ word) :
    ∃ a0 a1, Split word [',', ' '] = [a0, a1] ∧
      classify word opcodeDec opcode input output short =
        Except.ok
          [{ Word := cleanWord a0, WordAlt := cleanWord a1, Opcode := opcode
             Input := input, Output := output, Short := short },
           { Word := cleanWord a1, WordAlt := cleanWord a0, Opcode := opcode
             Input := input, Output := output, Short := short }] := by
  have hl : (Split word [',', ' ']).length = 2 := by rw [length_Split, hc]
  obtain ⟨a0, a1, ha⟩ := list_length_two _ hl
  refine ⟨a0, a1, ha, ?_⟩
  simp [classify, ha, Split_of_not_mem '-' [] word hh, namedOps]

/-! ## The shape of what the range expansion and `classify` return -/

theorem opNumber_some_prefix (s : Str) (m0 m1 m2 : Str)
    (h : opNumber s = some (m0, m1, m2)) :
    HasPrefix m1 opPrefix = true := by
  induction s with
  | nil => simp [opNumber] at h
  | cons c cs ih =>
    unfold opNumber at h
    simp only [] at h
    split at h
    · simp only [Option.some.injEq, Prod.mk.injEq] at h
      rw [← h.2.1]
      simp [HasPrefix, opPrefix]
    · exact ih h

theorem rangeLoop_ok (leftPre : Str) (leftN rightN opcodeLeft outputLeft : Int)
    (e : Bool) (input short : Str) (ops res : List Opcode)
    (hpre : HasPrefix leftPre opPrefix = true)
    (h : rangeLoop leftPre leftN rightN opcodeLeft outputLeft e input short ops =
      Except.ok res) :
    ∃ extra, res = ops ++ extra ∧ ∀ op ∈ extra, Expanded op := by
  unfold rangeLoop at h
  split at h
  · exact absurd h (by simp)
  · simp only [Except.ok.injEq] at h
    refine ⟨_, h.symm, ?_⟩
    intro op hop
    obtain ⟨k, _, rfl⟩ := List.mem_map.1 hop
    refine ⟨?_, rfl, ?_⟩
    · have hp : opPrefix <+: leftPre := List.isPrefixOf_iff_prefix.1 hpre
      exact List.isPrefixOf_iff_prefix.2 (hp.trans (List.prefix_append _ _))
    · simp [HasPrefix]

theorem expandRange_ok (leftOp rightOp opcodeDec input output short : Str)
    (ops res : List Opcode)
    (h : expandRange leftOp rightOp opcodeDec input output short ops = Except.ok res) :
    ∃ extra, res = ops ++ extra ∧ ∀ op ∈ extra, Expanded op := by
  have hnil : ∀ r : List Opcode, Except.ok (ε := Fault) ops = Except.ok r →
      ∃ extra, r = ops ++ extra ∧ ∀ op ∈ extra, Expanded op := by
    intro r hr
    simp only [Except.ok.injEq] at hr
    exact ⟨[], by simp [hr], by simp⟩
  unfold expandRange at h
  split at h
  next m0 leftPre ld m0r m1r rd hl hr =>
    have hpre := opNumber_some_prefix _ _ _ _ hl
    repeat' split at h
    all_goals first
      | exact hnil _ h
      | exact rangeLoop_ok _ _ _ _ _ _ _ _ _ _ hpre h
  · exact hnil _ h

theorem expandRange_bad_code (leftOp rightOp opcodeDec input output short : Str)
    (ops : List Opcode) (hbad : Atoi ((Split opcodeDec ['-']).headD []) = none) :
    expandRange leftOp rightOp opcodeDec input output short ops = Except.ok ops := by
  unfold expandRange
  repeat' split
  all_goals first
    | rfl
    | simp_all

theorem classify_range (word opcodeDec opcode input output short leftOp rightOp : Str)
    (hc : Count word [',', ' '] = 0) (hr : Split word ['-'] = [leftOp, rightOp]) :
    classify word opcodeDec opcode input output short =
      expandRange leftOp rightOp opcodeDec input output short
        (namedOps (Split word [',', ' ']) opcode input output short) := by
  have hl : (Split word [',', ' ']).length = 1 := by rw [length_Split, hc]
  simp [classify, hl, hr]

theorem namedOps_mem (alts : List Str) (opcode input output short : Str) (op : Opcode)
    (h : op ∈ namedOps alts opcode input output short) :
    op.Opcode = opcode ∧ (op.Word = [] ∨ HasPrefix op.Word opPrefix = true) := by
  unfold namedOps at h
  split at h
  · simp only [List.mem_singleton] at h
    subst h
    exact ⟨rfl, cleanWord_empty_or_prefix _⟩
  · simp only [List.mem_cons, List.mem_singleton, List.not_mem_nil, or_false] at h
    rcases h with h | h <;> subst h <;> exact ⟨rfl, cleanWord_empty_or_prefix _⟩
  · simp at h

/-- Every Opcode `classify` returns either comes from the single-name or
alias branch (its code is the hex-code cell, its Word a clean word or empty) or
from the range expansion. -/
theorem classify_ok (word opcodeDec opcode input output short : Str)
    (res : List Opcode)
    (h : classify word opcodeDec opcode input output short = Except.ok res) :
    ∀ op ∈ res,
      (op.Opcode = opcode ∧ (op.Word = [] ∨ HasPrefix op.Word opPrefix = true)) ∨
      Expanded op := by
  have hnamed : ∀ alts r, Except.ok (ε := Fault)
      (namedOps alts opcode input output short) = Except.ok r →
      ∀ op ∈ r, (op.Opcode = opcode ∧ (op.Word = [] ∨ HasPrefix op.Word opPrefix = true)) ∨
        Expanded op := by
    intro alts r hr op hop
    simp only [Except.ok.injEq] at hr
    subst hr
    exact Or.inl (namedOps_mem _ _ _ _ _ _ hop)
  have hexp : ∀ alts l r dec, expandRange l r dec input output short
      (namedOps alts opcode input output short) = Except.ok res →
      ∀ op ∈ res, (op.Opcode = opcode ∧ (op.Word = [] ∨ HasPrefix op.Word opPrefix = true)) ∨
        Expanded op := by
    intro alts l r dec he op hop
    obtain ⟨extra, rfl, hex⟩ := expandRange_ok _ _ _ _ _ _ _ _ he
    rcases List.mem_append.1 hop with h1 | h1
    · exact Or.inl (namedOps_mem _ _ _ _ _ _ h1)
    · exact Or.inr (hex _ h1)
  unfold classify at h
  simp only [] at h
  repeat' split at h
  all_goals first
    | exact hexp _ _ _ _ h
    | exact hnamed _ _ h
    | exact absurd h (by simp)

/-! ## The map `Script` -/

theorem lookup_filter_ne (spec : Script) (k k' : Str) (h : k' ≠ k) :
    (spec.filter fun e => e.1 != k).lookup k' = spec.lookup k' := by
  induction spec with
  | nil => rfl
  | cons e spec ih =>
    obtain ⟨ek, ev⟩ := e
    by_cases hek : ek = k
    · subst hek
      have hne : (k' == ek) = false := by simpa using h
      simp [List.filter, List.lookup, hne, ih]
    · have hne : (ek != k) = true := by simpa using hek
      simp only [List.filter, hne, List.lookup]
      split <;> simp [ih]

theorem lookup_set (spec : Script) (k k' : Str) (v : Opcode) :
    (spec.set k v).lookup k' = if k' = k then some v else spec.lookup k' := by
  unfold Script.set
  by_cases h : k' = k
  · subst h
    simp [List.lookup]
  · have hne : (k' == k) = false := by simpa using h
    simp [List.lookup, hne, h, lookup_filter_ne spec k k' h]

theorem keys_nodup_set (spec : Script) (k : Str) (v : Opcode)
    (h : (spec.map Prod.fst).Nodup) : ((spec.set k v).map Prod.fst).Nodup := by
  unfold Script.set
  simp only [List.map_cons, List.nodup_cons]
  constructor
  · intro hm
    obtain ⟨e, he, hk⟩ := List.mem_map.1 hm
    have := (List.mem_filter.1 he).2
    simp [hk] at this
  · exact h.sublist ((List.filter_sublist _).map _)

theorem word_eq_key_set (spec : Script) (op : Opcode)
    (h : ∀ e ∈ spec, e.2.Word = e.1) : ∀ e ∈ spec.set op.Word op, e.2.Word = e.1 := by
  intro e he
  unfold Script.set at he
  rcases List.mem_cons.1 he with rfl | he
  · rfl
  · exact h e (List.mem_filter.1 he).1

theorem lastNamed_nil (k : Str) (e : Option Opcode) : lastNamed [] k e = e := rfl

theorem lastNamed_cons (op : Opcode) (ops : List Opcode) (k : Str) (e : Option Opcode) :
    lastNamed (op :: ops) k e = lastNamed ops k (if k = op.Word then some op else e) := by
  unfold lastNamed
  simp only [List.reverse_cons, List.find?_append]
  cases hf : List.find? (fun op => op.Word == k) ops.reverse with
  | some x => simp
  | none =>
    by_cases hk : k = op.Word
    · subst hk
      simp
    · have hne : (op.Word == k) = false := by simpa using fun h => hk h.symm
      simp [List.find?, hne, hk]

theorem lastNamed_append (a b : List Opcode) (k : Str) (e : Option Opcode) :
    lastNamed (a ++ b) k e = lastNamed b k (lastNamed a k e) := by
  induction a generalizing e with
  | nil => rfl
  | cons op a ih => simp only [List.cons_append, lastNamed_cons, ih]

theorem lastNamed_none (ops : List Opcode) (k : Str) :
    lastNamed ops k none = ops.reverse.find? fun op => op.Word == k := by
  unfold lastNamed
  split <;> simp [*]

theorem insertOps_spec (ops : List Opcode) (spec : Script) (hw : WellKeyed spec) :
    WellKeyed (insertOps spec ops) ∧
      ∀ k, (insertOps spec ops).lookup k = lastNamed ops k (spec.lookup k) := by
  induction ops generalizing spec with
  | nil => exact ⟨hw, fun k => rfl⟩
  | cons op ops ih =>
    have hw' : WellKeyed (spec.set op.Word op) :=
      ⟨keys_nodup_set _ _ _ hw.1, word_eq_key_set _ _ hw.2⟩
    obtain ⟨h1, h2⟩ := ih (spec.set op.Word op) hw'
    refine ⟨h1, fun k => ?_⟩
    have := h2 k
    rw [lookup_set] at this
    rw [lastNamed_cons]
    exact this

theorem emitted_cons (cells : List Str) (rows : List (List Str)) :
    emitted (cells :: rows) =
      (match cellsToOps cells with
        | Except.ok ops => ops
        | Except.error _ => []) ++ emitted rows := by
  simp [emitted]

theorem scrapeRows_spec (rows : List (List Str)) (spec res : Script)
    (hw : WellKeyed spec) (h : scrapeRows spec rows = Except.ok res) :
    WellKeyed res ∧ ∀ k, res.lookup k = lastNamed (emitted rows) k (spec.lookup k) := by
  induction rows generalizing spec with
  | nil =>
    simp only [scrapeRows, Except.ok.injEq] at h
    subst h
    exact ⟨hw, fun k => rfl⟩
  | cons cells rows ih =>
    unfold scrapeRows at h
    split at h
    next hlen =>
      have hnil : cells = [] := List.length_eq_zero.1 hlen
      subst hnil
      have := ih spec hw h
      rw [emitted_cons]
      exact this
    next hlen =>
      split at h
      next ops hops =>
        obtain ⟨hw', hl'⟩ := insertOps_spec ops spec hw
        obtain ⟨h1, h2⟩ := ih (insertOps spec ops) hw' h
        refine ⟨h1, fun k => ?_⟩
        rw [emitted_cons, hops, lastNamed_append, h2 k, hl' k]
      next e he => exact absurd h (by simp)

/-! ## Decimal numbers and numbered names -/

theorem digitChar_spec : ∀ d, d < 10 →
    (Nat.digitChar d).isDigit = true ∧ (Nat.digitChar d).toNat - 48 = d := by
  decide

theorem toDigitsCore_all_digits (fuel n : Nat) (ds : Str)
    (h : ∀ c ∈ ds, c.isDigit = true) :
    ∀ c ∈ Nat.toDigitsCore 10 fuel n ds, c.isDigit = true := by
  induction fuel generalizing n ds with
  | zero => simpa [Nat.toDigitsCore] using h
  | succ fuel ih =>
    have hd : (Nat.digitChar (n % 10)).isDigit = true :=
      (digitChar_spec _ (Nat.mod_lt _ (by decide))).1
    have h' : ∀ c ∈ Nat.digitChar (n % 10) :: ds, c.isDigit = true := by
      intro c hc
      rcases List.mem_cons.1 hc with rfl | hc
      · exact hd
      · exact h c hc
    unfold Nat.toDigitsCore
    simp only []
    split
    · exact h'
    · exact ih _ _ h'

theorem toDigitsCore_ne_nil (fuel n : Nat) (ds : Str) (h : ds ≠ []) :
    Nat.toDigitsCore 10 fuel n ds ≠ [] := by
  induction fuel generalizing n ds with
  | zero => simpa [Nat.toDigitsCore] using h
  | succ fuel ih =>
    unfold Nat.toDigitsCore
    simp only []
    split
    · simp
    · exact ih _ _ (by simp)

theorem parseDigits_toDigitsCore (fuel n : Nat) (ds : Str) (h : n < fuel) :
    parseDigits 0 (Nat.toDigitsCore 10 fuel n ds) = parseDigits n ds := by
  induction fuel generalizing n ds with
  | zero => omega
  | succ fuel ih =>
    obtain ⟨hd, hv⟩ := digitChar_spec _ (Nat.mod_lt n (by decide : 0 < 10))
    unfold Nat.toDigitsCore
    simp only []
    split
    next h0 =>
      have hn : n % 10 = n := by omega
      rw [parseDigits, if_pos hd, hv, hn, Nat.zero_mul, Nat.zero_add]
    next h0 =>
      have hlt : n / 10 < fuel := by omega
      rw [ih _ _ hlt]
      have : n / 10 * 10 + n % 10 = n := by omega
      simp [parseDigits, hd, hv, this]

theorem toDigits_all_digits (n : Nat) : ∀ c ∈ Nat.toDigits 10 n, c.isDigit = true :=
  toDigitsCore_all_digits _ _ _ (by simp)

theorem toDigits_ne_nil (n : Nat) : Nat.toDigits 10 n ≠ [] := by
  unfold Nat.toDigits Nat.toDigitsCore
  simp only []
  split
  · simp
  · exact toDigitsCore_ne_nil _ _ _ (by simp)

theorem parseDigits_toDigits (n : Nat) : parseDigits 0 (Nat.toDigits 10 n) = some n := by
  unfold Nat.toDigits
  rw [parseDigits_toDigitsCore _ _ _ (Nat.lt_succ_self n)]
  rfl

theorem Atoi_toDigits (n : Nat) (h : n ≤ 9223372036854775807) :
    Atoi (Nat.toDigits 10 n) = some (n : Int) := by
  have hne := toDigits_ne_nil n
  have hall := toDigits_all_digits n
  cases hs : Nat.toDigits 10 n with
  | nil => exact absurd hs hne
  | cons x xs =>
    have hx : x.isDigit = true := hall x (by rw [hs]; exact List.mem_cons_self _ _)
    have h1 : x ≠ '-' := by rintro rfl; revert hx; decide
    have h2 : x ≠ '+' := by rintro rfl; revert hx; decide
    have hp := parseDigits_toDigits n
    rw [hs] at hp
    simp [Atoi, h1, h2, hp, h]

theorem isDigit_not_isUpper (c : Char) (h : c.isDigit = true) : c.isUpper = false := by
  simp only [Char.isDigit, Char.isUpper, Bool.and_eq_true, decide_eq_true_eq, ge_iff_le,
    UInt32.le_def, Bool.and_eq_false_iff, decide_eq_false_iff_not, Fin.le_def] at h ⊢
  change (48 ≤ c.val.val.val ∧ c.val.val.val ≤ 57) at h
  change (¬ 65 ≤ c.val.val.val ∨ ¬ c.val.val.val ≤ 90)
  omega

theorem isDigit_isWordOrHyphen (c : Char) (h : c.isDigit = true) :
    isWordOrHyphen c = true := by
  simp [isWordOrHyphen, isWord, Char.isAlphanum, h]

theorem isUpper_isWordOrHyphen (c : Char) (h : c.isUpper = true) :
    isWordOrHyphen c = true := by
  simp [isWordOrHyphen, isWord, Char.isAlphanum, Char.isAlpha, h]

theorem takeWhile_dropWhile_append (p : Char → Bool) (l1 l2 : Str)
    (h1 : ∀ x ∈ l1, p x = true) (h2 : ∀ x, l2.head? = some x → p x = false) :
    (l1 ++ l2).takeWhile p = l1 ∧ (l1 ++ l2).dropWhile p = l2 := by
  induction l1 with
  | nil =>
    cases l2 with
    | nil => simp
    | cons x xs => simp [List.takeWhile, List.dropWhile, h2 x rfl]
  | cons a l1 ih =>
    have ha : p a = true := h1 a (List.mem_cons_self _ _)
    have := ih fun x hx => h1 x (List.mem_cons_of_mem _ hx)
    simp [List.takeWhile, List.dropWhile, ha, this]

theorem toDigits_head (n : Nat) :
    ∃ x xs, Nat.toDigits 10 n = x :: xs ∧ x.isDigit = true := by
  cases hs : Nat.toDigits 10 n with
  | nil => exact absurd hs (toDigits_ne_nil n)
  | cons x xs =>
    exact ⟨x, xs, rfl, toDigits_all_digits n x (by rw [hs]; exact List.mem_cons_self _ _)⟩

theorem opNumber_letters_digits (L : Str) (n : Nat) (hL : ∀ ch ∈ L, ch.isUpper = true) :
    opNumber (opPrefix ++ L ++ Nat.toDigits 10 n) =
      some (opPrefix ++ L ++ Nat.toDigits 10 n, opPrefix ++ L, Nat.toDigits 10 n) := by
  obtain ⟨x, xs, hx, hxd⟩ := toDigits_head n
  have hsplit := takeWhile_dropWhile_append Char.isUpper L (Nat.toDigits 10 n) hL
    (by
      intro y hy
      rw [hx] at hy
      simp only [List.head?_cons, Option.some.injEq] at hy
      subst hy
      exact isDigit_not_isUpper _ hxd)
  have htd : (Nat.toDigits 10 n).takeWhile Char.isDigit = Nat.toDigits 10 n :=
    List.takeWhile_eq_self_iff.2 (toDigits_all_digits n)
  have hne : (Nat.toDigits 10 n).isEmpty = false := by rw [hx]; rfl
  show opNumber ('O' :: ('P' :: '_' :: (L ++ Nat.toDigits 10 n))) = _
  simp [opNumber, HasPrefix, opPrefix, hsplit.1, hsplit.2, htd, hne]

theorem wrap64_offset (c a k : Nat) (h : c + k ≤ 9223372036854775807) :
    wrap64 (wrap64 ((c : Int) + ((a : Int) + (k : Int))) - (a : Int)) = ((c + k : Nat) : Int) := by
  unfold wrap64
  omega

theorem expandRange_eval (leftOp rightOp opcodeDec input output short : Str)
    (ops : List Opcode) (m0 lp ld m0' rp rd x y u v : Str) (leftN rightN c o : Int)
    (h1 : opNumber leftOp = some (m0, lp, ld)) (h2 : opNumber rightOp = some (m0', rp, rd))
    (h3 : Atoi ld = some leftN) (h4 : Atoi rd = some rightN)
    (h5 : Split opcodeDec ['-'] = [x, y]) (h6 : Atoi x = some c)
    (h7 : Split output ['-'] = [u, v]) (h8 : Atoi u = some o) (h9 : output ≠ []) :
    expandRange leftOp rightOp opcodeDec input output short ops =
      rangeLoop lp leftN rightN c o false input short ops := by
  have hl : ¬ output.length = 0 := fun h => h9 (List.length_eq_zero.1 h)
  simp [expandRange, h1, h2, h3, h4, h5, h6, h7, h8, hl]

theorem fmtD_natCast (n : Nat) : fmtD (n : Int) = Nat.toDigits 10 n := by
  have h : ¬ ((n : Int) < 0) := by omega
  simp [fmtD, h]

theorem fmtX_natCast (n : Nat) : fmtX (n : Int) = Nat.toDigits 16 n := by
  have h : ¬ ((n : Int) < 0) := by omega
  simp [fmtX, h]

theorem isUpper_ne_hyphen (c : Char) (h : c.isUpper = true) : c ≠ '-' := by
  rintro rfl
  revert h
  decide

theorem isUpper_ne_comma (c : Char) (h : c.isUpper = true) : c ≠ ',' := by
  rintro rfl
  revert h
  decide

theorem isDigit_ne_hyphen (c : Char) (h : c.isDigit = true) : c ≠ '-' := by
  rintro rfl
  revert h
  decide

theorem isDigit_ne_comma (c : Char) (h : c.isDigit = true) : c ≠ ',' := by
  rintro rfl
  revert h
  decide

/-- The characters of a numbered name `OP_<capitals><decimal>`. -/
theorem numbered_name_chars (L : Str) (n : Nat) (hL : ∀ ch ∈ L, ch.isUpper = true) :
    ∀ ch ∈ opPrefix ++ L ++ Nat.toDigits 10 n,
      isWordOrHyphen ch = true ∧ ch ≠ '-' ∧ ch ≠ ',' := by
  intro ch hch
  rcases List.mem_append.1 hch with h | h
  · rcases List.mem_append.1 h with h | h
    · simp only [opPrefix, List.mem_cons, List.mem_singleton, List.not_mem_nil,
        or_false] at h
      rcases h with rfl | rfl | rfl <;> decide
    · exact ⟨isUpper_isWordOrHyphen _ (hL _ h), isUpper_ne_hyphen _ (hL _ h),
        isUpper_ne_comma _ (hL _ h)⟩
  · have hd := toDigits_all_digits n ch h
    exact ⟨isDigit_isWordOrHyphen _ hd, isDigit_ne_hyphen _ hd, isDigit_ne_comma _ hd⟩

theorem Split_decimal_pair (x y : Nat) :
    Split (Nat.toDigits 10 x ++ '-' :: Nat.toDigits 10 y) ['-'] =
      [Nat.toDigits 10 x, Nat.toDigits 10 y] := by
  rw [Split_hyphen_append _ _ fun h => isDigit_ne_hyphen _ (toDigits_all_digits x _ h) rfl,
    Split_of_not_mem '-' [] _ fun h => isDigit_ne_hyphen _ (toDigits_all_digits y _ h) rfl]

theorem rangeLoop_eval (lp : Str) (a b c o : Nat) (input short : Str) (ops : List Opcode)
    (hab : a ≤ b) (hb : b < 9223372036854775807)
    (hc : c + (b - a) ≤ 9223372036854775807) (ho : o + (b - a) ≤ 9223372036854775807) :
    rangeLoop lp a b c o false input short ops =
      Except.ok (ops ++ (List.range (b - a + 1)).map fun k =>
        { Word := lp ++ Nat.toDigits 10 (a + k)
          WordAlt := []
          Opcode := ['0', 'x'] ++ Nat.toDigits 16 (c + k)
          Input := input
          Output := Nat.toDigits 10 (o + k)
          Short := short }) := by
  have hne : ¬ ((a : Int) ≤ (b : Int) ∧ (b : Int) = maxInt) := by
    unfold maxInt
    omega
  have hcount : ((b : Int) + 1 - (a : Int)).toNat = b - a + 1 := by omega
  unfold rangeLoop
  rw [if_neg hne, hcount]
  refine congrArg Except.ok (congrArg (fun l => ops ++ l) (List.map_congr_left ?_))
  intro k hk
  have hk' : k < b - a + 1 := List.mem_range.1 hk
  have e1 : ((a : Int) + (k : Int)) = ((a + k : Nat) : Int) := by omega
  simp only [wrap64_offset c a k (by omega), wrap64_offset o a k (by omega), fmtX_natCast,
    fmtD_natCast, Bool.false_eq_true, if_false]
  rw [e1, fmtD_natCast]

/-! ## The claims on single rows -/

/-- C1, the claim as written fails: the row `OP_1-OP_16` of the specification
yields seventeen Opcodes, not sixteen. The name cell holds no `", "`, so the
single-name branch runs first and emits an Opcode whose Word is the whole name
cell `OP_1-OP_16`; the sixteen Opcodes of the range follow it. -/
theorem cellsToOps_range_row_counterexample :
    ∃ ops, cellsToOps ["OP_1-OP_16".toList, "81-96".toList, "0x51-0x60".toList,
        "Nothing.".toList, "1-16".toList, "The number.".toList] = Except.ok ops ∧
      ops.length = 17 ∧
      ops.head? = some
        { Word := "OP_1-OP_16".toList, WordAlt := [], Opcode := "0x51-0x60".toList
          Input := "Nothing.".toList, Output := "1-16".toList
          Short := "The number.".toList } :=
  ⟨_, rfl, by decide, by decide⟩

/-- C1, amended: take a six-cell row whose trimmed name cell is `P a - P b`
(`P` is `OP_` and capitals, `a ≤ b` in decimal, `b` below the largest `int`),
whose trimmed decimal-code cell is `c-d` and whose trimmed output cell is
`o-p`, with `c + (b - a)` and `o + (b - a)` within `int`. The call returns
`b - a + 2` Opcodes: first the Opcode of the single-name branch, whose Word is
the whole name cell, whose code is the trimmed third cell and whose Output is
the trimmed output cell; then, for `k = 0 .. b - a`, the Opcode with Word
`P (a + k)`, code `0x` and the hexadecimal of `c + k`, Output the decimal of
`o + k`, and the Input and Short of the row. -/
theorem cellsToOps_range_row (c0 c1 c2 c3 c4 c5 L : Str) (a b c d o p : Nat)
    (hL : ∀ ch ∈ L, ch.isUpper = true)
    (hab : a ≤ b) (hb : b < 9223372036854775807)
    (hc : c + (b - a) ≤ 9223372036854775807) (ho : o + (b - a) ≤ 9223372036854775807)
    (hname : TrimSpace c0 =
      opPrefix ++ L ++ Nat.toDigits 10 a ++ '-' :: (opPrefix ++ L ++ Nat.toDigits 10 b))
    (hdec : TrimSpace c1 = Nat.toDigits 10 c ++ '-' :: Nat.toDigits 10 d)
    (hout : TrimSpace c4 = Nat.toDigits 10 o ++ '-' :: Nat.toDigits 10 p) :
    cellsToOps [c0, c1, c2, c3, c4, c5] =
      Except.ok
        ({ Word := TrimSpace c0
           WordAlt := []
           Opcode := TrimSpace c2
           Input := TrimSpace c3
           Output := TrimSpace c4
           Short := TrimSpace c5 } ::
          (List.range (b - a + 1)).map fun k =>
            { Word := opPrefix ++ L ++ Nat.toDigits 10 (a + k)
              WordAlt := []
              Opcode := ['0', 'x'] ++ Nat.toDigits 16 (c + k)
              Input := TrimSpace c3
              Output := Nat.toDigits 10 (o + k)
              Short := TrimSpace c5 }) := by
  have hA := numbered_name_chars L a hL
  have hB := numbered_name_chars L b hL
  have hcomma : ',' ∉ TrimSpace c0 := by
    rw [hname]
    intro hm
    rcases List.mem_append.1 hm with h | h
    · exact (hA _ h).2.2 rfl
    · rcases List.mem_cons.1 h with h | h
      · revert h; decide
      · exact (hB _ h).2.2 rfl
  have hsplit : Split (TrimSpace c0) ['-'] =
      [opPrefix ++ L ++ Nat.toDigits 10 a, opPrefix ++ L ++ Nat.toDigits 10 b] := by
    rw [hname, Split_hyphen_append _ _ fun h => (hA _ h).2.1 rfl,
      Split_of_not_mem '-' [] _ fun h => (hB _ h).2.1 rfl]
  have hcount : Count (TrimSpace c0) [',', ' '] = 0 := by
    have := length_Split (TrimSpace c0) [',', ' ']
    rw [Split_of_not_mem ',' [' '] _ hcomma] at this
    simpa using this.symm
  have hpre : HasPrefix (TrimSpace c0) opPrefix = true := by
    rw [hname]
    simp [HasPrefix, List.append_assoc]
  have hclean : cleanWord (TrimSpace c0) = TrimSpace c0 := by
    have hw : TrimSpace c0 = opPrefix ++
        (L ++ Nat.toDigits 10 a ++ '-' :: (opPrefix ++ L ++ Nat.toDigits 10 b)) := by
      rw [hname]
      simp [List.append_assoc]
    rw [hw]
    refine cleanWord_opPrefix_append _ (by simp) ?_
    intro ch hch
    rcases List.mem_append.1 hch with h | h
    · exact (hA ch (by
        rcases List.mem_append.1 h with h | h
        · exact List.mem_append.2 (Or.inl (List.mem_append.2 (Or.inr h)))
        · exact List.mem_append.2 (Or.inr h))).1
    · rcases List.mem_cons.1 h with h | h
      · subst h; decide
      · exact (hB _ h).1
  have hone : TrimSpace c4 ≠ [] := by
    rw [hout]
    simp
  rw [cellsToOps_cons3, classify_range _ _ _ _ _ _ _ _ hcount hsplit,
    Split_of_not_mem ',' [' '] _ hcomma]
  have hin : rowInput [c0, c1, c2, c3, c4, c5] = TrimSpace c3 := rfl
  have hou : rowOutput [c0, c1, c2, c3, c4, c5] = TrimSpace c4 := rfl
  have hsh : rowShort [c0, c1, c2, c3, c4, c5] = TrimSpace c5 := rfl
  rw [hin, hou, hsh, expandRange_eval _ _ _ _ _ _ _ _ _ _ _ _ _ _ _ _ _ a b c o
    (opNumber_letters_digits L a hL) (opNumber_letters_digits L b hL)
    (Atoi_toDigits a (by omega)) (Atoi_toDigits b (by omega))
    (by rw [hdec]; exact Split_decimal_pair c d) (Atoi_toDigits c (by omega))
    (by rw [hout]; exact Split_decimal_pair o p) (Atoi_toDigits o (by omega)) hone,
    rangeLoop_eval _ a b c o _ _ _ hab hb hc ho]
  simp [hpre, namedOps, hclean]

/-- The row `OP_1-OP_16` with the cells `81-96` and `1-16`: the Opcode named
`OP_1-OP_16`, then `OP_1` to `OP_16` with the codes `0x51` to `0x60`. -/
theorem cellsToOps_range_row_witness :
    cellsToOps ["OP_1-OP_16".toList, " 81-96".toList, "0x51-0x60".toList,
        "Nothing.".toList, "1-16".toList, "The number.".toList] =
      Except.ok
        ({ Word := TrimSpace "OP_1-OP_16".toList
           WordAlt := []
           Opcode := TrimSpace "0x51-0x60".toList
           Input := TrimSpace "Nothing.".toList
           Output := TrimSpace "1-16".toList
           Short := TrimSpace "The number.".toList } ::
          (List.range (16 - 1 + 1)).map fun k =>
            { Word := opPrefix ++ [] ++ Nat.toDigits 10 (1 + k)
              WordAlt := []
              Opcode := ['0', 'x'] ++ Nat.toDigits 16 (81 + k)
              Input := TrimSpace "Nothing.".toList
              Output := Nat.toDigits 10 (1 + k)
              Short := TrimSpace "The number.".toList }) :=
  cellsToOps_range_row "OP_1-OP_16".toList " 81-96".toList "0x51-0x60".toList
    "Nothing.".toList "1-16".toList "The number.".toList [] 1 16 81 96 1 16
    (by decide) (by decide) (by decide) (by decide) (by decide) (by decide) (by decide)
    (by decide)

/-- C2: a row of at least three cells whose trimmed name cell is `OP_` followed
by one or more word characters (so it holds neither `", "` nor `"-"`) yields
exactly one Opcode: Word is the trimmed name cell, WordAlt is empty, Opcode is
the trimmed third cell, Short the trimmed last cell, and Input and Output are
the trimmed fourth and fifth cells of a six-cell row (empty otherwise). -/
theorem cellsToOps_single_name (c0 c1 c2 : Str) (rest : List Str) (w : Str)
    (hname : TrimSpace c0 = opPrefix ++ w) (hw : w ≠ [])
    (hword : ∀ c ∈ w, isWord c = true) :
    cellsToOps (c0 :: c1 :: c2 :: rest) =
      Except.ok
        [{ Word := TrimSpace c0
           WordAlt := []
           Opcode := TrimSpace c2
           Input := rowInput (c0 :: c1 :: c2 :: rest)
           Output := rowOutput (c0 :: c1 :: c2 :: rest)
           Short := rowShort (c0 :: c1 :: c2 :: rest) }] := by
  have hc : ',' ∉ TrimSpace c0 := by
    rw [hname]
    intro hm
    rcases List.mem_append.1 hm with h | h
    · revert h; decide
    · exact isWord_ne_comma _ (hword _ h) rfl
  have hh : '-' ∉ TrimSpace c0 := by
    rw [hname]
    intro hm
    rcases List.mem_append.1 hm with h | h
    · revert h; decide
    · exact isWord_ne_hyphen _ (hword _ h) rfl
  have hp : HasPrefix (TrimSpace c0) opPrefix = true := by
    rw [hname]
    simp [HasPrefix]
  have hcw : cleanWord (TrimSpace c0) = TrimSpace c0 := by
    rw [hname]
    exact cleanWord_opPrefix_append w hw fun c hcm => by simp [isWordOrHyphen, hword c hcm]
  rw [cellsToOps_cons3, classify_single _ _ _ _ _ _ hc hh, hcw]
  simp [hp]

/-- The row `OP_DUP` of the specification, with white space around two cells. -/
theorem cellsToOps_single_name_witness :
    cellsToOps ["OP_DUP ".toList, "118".toList, "0x76".toList, "x".toList, "x x".toList,
        " Duplicates the top stack item.".toList] =
      Except.ok
        [{ Word := "OP_DUP".toList
           WordAlt := []
           Opcode := "0x76".toList
           Input := "x".toList
           Output := "x x".toList
           Short := "Duplicates the top stack item.".toList }] :=
  cellsToOps_single_name "OP_DUP ".toList "118".toList "0x76".toList
    ["x".toList, "x x".toList, " Duplicates the top stack item.".toList] "DUP".toList
    (by decide) (by decide) (by decide)

/-- C3: a row of at least three cells whose trimmed name cell starts with `OP_`,
holds exactly one separator `", "` and no `"-"` yields exactly two Opcodes; each
has the other's Word as its WordAlt, the Words are the clean words of the two
parts of the name cell, and Opcode, Input, Output and Short are shared. -/
theorem cellsToOps_alias_pair (c0 c1 c2 : Str) (rest : List Str)
    (hp : HasPrefix (TrimSpace c0) opPrefix = true)
    (hc : Count (TrimSpace c0) [',', ' '] = 1) (hh : '-' ∉ TrimSpace c0) :
    ∃ x y : Opcode, cellsToOps (c0 :: c1 :: c2 :: rest) = Except.ok [x, y] ∧
      x.WordAlt = y.Word ∧ y.WordAlt = x.Word ∧ x.Opcode = y.Opcode ∧
      x.Input = y.Input ∧ x.Output = y.Output ∧ x.Short = y.Short := by
  obtain ⟨a0, a1, _, hcl⟩ := classify_alias (TrimSpace c0) (TrimSpace c1) (TrimSpace c2)
    (rowInput (c0 :: c1 :: c2 :: rest)) (rowOutput (c0 :: c1 :: c2 :: rest))
    (rowShort (c0 :: c1 :: c2 :: rest)) hc hh
  refine ⟨⟨cleanWord a0, cleanWord a1, TrimSpace c2, rowInput (c0 :: c1 :: c2 :: rest),
      rowOutput (c0 :: c1 :: c2 :: rest), rowShort (c0 :: c1 :: c2 :: rest)⟩,
    ⟨cleanWord a1, cleanWord a0, TrimSpace c2, rowInput (c0 :: c1 :: c2 :: rest),
      rowOutput (c0 :: c1 :: c2 :: rest), rowShort (c0 :: c1 :: c2 :: rest)⟩,
    ?_, rfl, rfl, rfl, rfl, rfl, rfl⟩
  rw [cellsToOps_cons3, hcl]
  simp [hp]

/-- The alias row `OP_NOP, OP_RESERVED`: two Opcodes that name each other. -/
theorem cellsToOps_alias_pair_witness :
    ∃ x y : Opcode,
      cellsToOps ["OP_NOP, OP_RESERVED".toList, "97".toList, "0x61".toList,
        "Nothing".toList, "Nothing".toList, "Does nothing.".toList] = Except.ok [x, y] ∧
      x.WordAlt = y.Word ∧ y.WordAlt = x.Word ∧ x.Opcode = y.Opcode ∧
      x.Input = y.Input ∧ x.Output = y.Output ∧ x.Short = y.Short :=
  cellsToOps_alias_pair "OP_NOP, OP_RESERVED".toList "97".toList "0x61".toList
    ["Nothing".toList, "Nothing".toList, "Does nothing.".toList]
    (by decide) (by decide) (by decide)

/-- The two Opcodes of the alias row `OP_NOP, OP_RESERVED`, written out. -/
theorem cellsToOps_alias_pair_example :
    cellsToOps ["OP_NOP, OP_RESERVED".toList, "97".toList, "0x61".toList,
        "Nothing".toList, "Nothing".toList, "Does nothing.".toList] =
      Except.ok
        [{ Word := "OP_NOP".toList, WordAlt := "OP_RESERVED".toList
           Opcode := "0x61".toList, Input := "Nothing".toList
           Output := "Nothing".toList, Short := "Does nothing.".toList },
         { Word := "OP_RESERVED".toList, WordAlt := "OP_NOP".toList
           Opcode := "0x61".toList, Input := "Nothing".toList
           Output := "Nothing".toList, Short := "Does nothing.".toList }] := by
  decide

/-- C4, the claim as written fails: the first cell `" OP_DUP"` does not start
with `OP_`, and the row still yields an Opcode, because the prefix test is made
on the trimmed cell. -/
theorem cellsToOps_untrimmed_prefix_counterexample :
    HasPrefix " OP_DUP".toList opPrefix = false ∧
    cellsToOps [" OP_DUP".toList, "118".toList, "0x76".toList] =
      Except.ok
        [{ Word := "OP_DUP".toList, WordAlt := [], Opcode := "0x76".toList
           Input := [], Output := [], Short := "0x76".toList }] := by
  decide

/-- C4, amended: a row of at least three cells whose trimmed first cell does
not start with `OP_` yields the empty sequence, and no failure is raised. -/
theorem cellsToOps_skips_other_rows (c0 c1 c2 : Str) (rest : List Str)
    (hp : HasPrefix (TrimSpace c0) opPrefix = false) :
    cellsToOps (c0 :: c1 :: c2 :: rest) = Except.ok [] := by
  rw [cellsToOps_cons3]
  simp [hp]

/-- A header row of the wiki table is passed over. -/
theorem cellsToOps_skips_other_rows_witness :
    cellsToOps ["Word".toList, "Opcode".toList, "Hex".toList, "Input".toList,
      "Output".toList, "Description".toList] = Except.ok [] :=
  cellsToOps_skips_other_rows "Word".toList "Opcode".toList "Hex".toList
    ["Input".toList, "Output".toList, "Description".toList] (by decide)

/-- C6, the code fails the claim: a row of one cell makes `cells[1]` panic
(also when its cell is not an opcode name, the cells being read before the
prefix test), a row of two cells makes `cells[2]` panic, and a name cell
`A, B-C` whose decimal-code cell holds no `", "` makes the index `[1]` into
the split of that cell panic. -/
theorem cellsToOps_short_row_panics :
    cellsToOps ["OP_DUP".toList] = Except.error Fault.indexOutOfRange ∧
    cellsToOps ["Word".toList] = Except.error Fault.indexOutOfRange ∧
    cellsToOps ["OP_DUP".toList, "118".toList] = Except.error Fault.indexOutOfRange ∧
    cellsToOps ["OP_NOP1, OP_NOP4-OP_NOP10".toList, "176-185".toList, "0xb0".toList,
      "ignored".toList] = Except.error Fault.indexOutOfRange := by
  decide

/-- C9: a second call on the cells as the first call left them returns what the
first call returned, and so does a call on the trimmed cells: the same Opcode
sequence, or the same fault. -/
theorem cellsToOps_second_call (cells : List Str) :
    cellsToOps (cellsToOpsRun cells).1 = cellsToOps cells ∧
    cellsToOps (cells.map TrimSpace) = cellsToOps cells := by
  have hm : (cells.map TrimSpace).map TrimSpace = cells.map TrimSpace := by
    rw [List.map_map]
    exact List.map_congr_left fun s _ => TrimSpace_idem s
  have h2 : cellsToOps (cells.map TrimSpace) = cellsToOps cells := by
    cases cells with
    | nil => rfl
    | cons c cs =>
      simp only [cellsToOps, cellsToOpsRun, hm]
      simp
  refine ⟨?_, h2⟩
  cases cells with
  | nil => rfl
  | cons c cs =>
    have h1 : (cellsToOpsRun (c :: cs)).1 = (c :: cs).map TrimSpace := by
      simp [cellsToOpsRun]
    rw [h1, h2]

/-- Two calls on an untrimmed row, the second on the cells the first one left. -/
theorem cellsToOps_second_call_example :
    cellsToOps (cellsToOpsRun [" OP_DUP ".toList, "118".toList, " 0x76".toList,
        "Duplicates the top stack item. ".toList]).1 =
      cellsToOps [" OP_DUP ".toList, "118".toList, " 0x76".toList,
        "Duplicates the top stack item. ".toList] ∧
    cellsToOps [" OP_DUP ".toList, "118".toList, " 0x76".toList,
        "Duplicates the top stack item. ".toList] =
      Except.ok [⟨"OP_DUP".toList, [], "0x76".toList, [], [],
        "Duplicates the top stack item.".toList⟩] := by
  decide

/-- C10, the claim as written fails: after the call the caller's first and last
cells have lost their white space. -/
theorem cellsToOps_mutates_cells_counterexample :
    (cellsToOpsRun [" OP_DUP ".toList, "118".toList, "0x76".toList,
        "Duplicates the top stack item. ".toList]).1 =
      ["OP_DUP".toList, "118".toList, "0x76".toList,
        "Duplicates the top stack item.".toList] ∧
    (cellsToOpsRun [" OP_DUP ".toList, "118".toList, "0x76".toList,
        "Duplicates the top stack item. ".toList]).1 ≠
      [" OP_DUP ".toList, "118".toList, "0x76".toList,
        "Duplicates the top stack item. ".toList] := by
  decide

/-- C10, amended: the call overwrites every element of the caller's cells with
its trimmed value and changes nothing else: the sequence keeps its length and
its `i`-th element becomes the trimmed `i`-th element (so an element without
white space at either end keeps its value). -/
theorem cellsToOps_trims_in_place (cells : List Str) :
    (cellsToOpsRun cells).1 = cells.map TrimSpace ∧
    (cellsToOpsRun cells).1.length = cells.length := by
  have h1 : (cellsToOpsRun cells).1 = cells.map TrimSpace := by
    cases cells with
    | nil => rfl
    | cons c cs => simp [cellsToOpsRun]
  exact ⟨h1, by rw [h1, List.length_map]⟩

/-- C5, the claim as written fails: the name cell `OP_ (reserved)` starts with
`OP_` but holds no clean word, and the hex-code cell is blank, so the Opcode
that is emitted has an empty Word and an empty code. -/
theorem cellsToOps_empty_word_counterexample :
    cellsToOps ["OP_ (reserved)".toList, "80".toList, " ".toList, "Reserved.".toList] =
      Except.ok
        [{ Word := [], WordAlt := [], Opcode := [], Input := [], Output := []
           Short := "Reserved.".toList }] := by
  decide

/-- C5, amended: every Opcode a call returns is of one of two shapes. Either it
comes from the single-name or alias branch: its code is the trimmed third
cell, and its Word is empty or begins with `OP_`. Or it comes from the range
expansion: its Word begins with `OP_` and its code begins with `0x`. -/
theorem cellsToOps_emitted_shape (cells : List Str) (ops : List Opcode)
    (h : cellsToOps cells = Except.ok ops) :
    ∀ op ∈ ops,
      (op.Opcode = TrimSpace (cells.getD 2 []) ∧
        (op.Word = [] ∨ HasPrefix op.Word opPrefix = true)) ∨
      Expanded op := by
  match cells, h with
  | [], h =>
    simp only [cellsToOps, cellsToOpsRun, List.length_nil, if_true, Except.ok.injEq] at h
    subst h
    simp
  | [a], h => simp [cellsToOps, cellsToOpsRun, cellsToOpsBody, index] at h
  | [a, b], h => simp [cellsToOps, cellsToOpsRun, cellsToOpsBody, index] at h
  | c0 :: c1 :: c2 :: rest, h =>
    rw [cellsToOps_cons3] at h
    split at h
    · simp only [Except.ok.injEq] at h
      subst h
      simp
    · simpa using classify_ok _ _ _ _ _ _ _ h

/-- The four-cell range row `OP_1-OP_2`: the Opcode of the expansion named
`OP_2` is one of those returned, and it has one of the two shapes. -/
theorem cellsToOps_emitted_shape_witness :
    ((⟨"OP_2".toList, [], "0x52".toList, [], [], "The number.".toList⟩ : Opcode).Opcode =
        TrimSpace (["OP_1-OP_2".toList, "81-82".toList, "0x51-0x52".toList,
          "The number.".toList].getD 2 []) ∧
      ((⟨"OP_2".toList, [], "0x52".toList, [], [], "The number.".toList⟩ : Opcode).Word = [] ∨
        HasPrefix (⟨"OP_2".toList, [], "0x52".toList, [], [], "The number.".toList⟩ : Opcode).Word opPrefix = true)) ∨
    Expanded (⟨"OP_2".toList, [], "0x52".toList, [], [], "The number.".toList⟩ : Opcode) :=
  cellsToOps_emitted_shape
    ["OP_1-OP_2".toList, "81-82".toList, "0x51-0x52".toList, "The number.".toList]
    [⟨"OP_1-OP_2".toList, [], "0x51-0x52".toList, [], [], "The number.".toList⟩,
     ⟨"OP_1".toList, [], "0x51".toList, [], [], "The number.".toList⟩,
     ⟨"OP_2".toList, [], "0x52".toList, [], [], "The number.".toList⟩]
    (by decide) _ (by decide)

/-- C7: on a range row (trimmed name cell `X-Y` without `", "`, at least three
cells) whose decimal-code cell has a left part that is no integer, the call
returns, and what it returns is a prefix of what the call returns for the same
row with any other decimal-code cell, a well-formed one in particular. -/
theorem cellsToOps_malformed_code_prefix (c0 c1 c1' c2 : Str) (rest : List Str)
    (hc : Count (TrimSpace c0) [',', ' '] = 0) (hr : Count (TrimSpace c0) ['-'] = 1)
    (hbad : Atoi ((Split (TrimSpace c1) ['-']).headD []) = none) :
    ∃ ops, cellsToOps (c0 :: c1 :: c2 :: rest) = Except.ok ops ∧
      ∀ ops', cellsToOps (c0 :: c1' :: c2 :: rest) = Except.ok ops' → ops <+: ops' := by
  have hl : (Split (TrimSpace c0) ['-']).length = 2 := by rw [length_Split, hr]
  obtain ⟨l, r, hlr⟩ := list_length_two _ hl
  have hin : rowInput (c0 :: c1' :: c2 :: rest) = rowInput (c0 :: c1 :: c2 :: rest) := rfl
  have hout : rowOutput (c0 :: c1' :: c2 :: rest) = rowOutput (c0 :: c1 :: c2 :: rest) := rfl
  have hsh : rowShort (c0 :: c1' :: c2 :: rest) = rowShort (c0 :: c1 :: c2 :: rest) := by
    simp [rowShort, List.getLastD_cons]
  rw [cellsToOps_cons3, cellsToOps_cons3, hin, hout, hsh]
  split
  · exact ⟨[], rfl, fun ops' h => by simp⟩
  · rw [classify_range _ _ _ _ _ _ l r hc hlr, classify_range _ _ _ _ _ _ l r hc hlr,
      expandRange_bad_code _ _ _ _ _ _ _ hbad]
    refine ⟨_, rfl, ?_⟩
    intro ops' h
    obtain ⟨extra, rfl, _⟩ := expandRange_ok _ _ _ _ _ _ _ _ h
    exact List.prefix_append _ _

/-- The row `OP_1-OP_16` with the decimal-code cell `notanumber-96`: its result
is a prefix of the result of the row with the cell `81-96`. -/
theorem cellsToOps_malformed_code_prefix_witness :
    ∃ ops, cellsToOps ["OP_1-OP_16".toList, "notanumber-96".toList, "0x51-0x60".toList,
        "Nothing.".toList, "1-16".toList, "The number.".toList] = Except.ok ops ∧
      ∀ ops', cellsToOps ["OP_1-OP_16".toList, "81-96".toList, "0x51-0x60".toList,
        "Nothing.".toList, "1-16".toList, "The number.".toList] = Except.ok ops' →
        ops <+: ops' :=
  cellsToOps_malformed_code_prefix "OP_1-OP_16".toList "notanumber-96".toList
    "81-96".toList "0x51-0x60".toList
    ["Nothing.".toList, "1-16".toList, "The number.".toList]
    (by decide) (by decide) (by decide)

/-- The result of the row `OP_1-OP_16` with the decimal-code cell
`notanumber-96`: the Opcode of the single-name branch alone. -/
theorem cellsToOps_malformed_code_example :
    cellsToOps ["OP_1-OP_16".toList, "notanumber-96".toList, "0x51-0x60".toList,
        "Nothing.".toList, "1-16".toList, "The number.".toList] =
      Except.ok
        [{ Word := "OP_1-OP_16".toList, WordAlt := [], Opcode := "0x51-0x60".toList
           Input := "Nothing.".toList, Output := "1-16".toList
           Short := "The number.".toList }] := by
  decide

/-! ## The claim on the map -/

/-- C8: when the build returns a map, no key has two entries, every entry is
stored under its own Word, and the entry of a key is the Opcode of that name
that the rows produced last (rows in order, the Opcodes of a row in order). -/
theorem NewFromBitcoinWiki_last_write_wins (tables : List (List (List Str)))
    (spec : Script) (h : NewFromBitcoinWiki tables = Except.ok spec) :
    (spec.map Prod.fst).Nodup ∧ (∀ e ∈ spec, e.2.Word = e.1) ∧
      ∀ k, spec.lookup k =
        (emitted (tables.take 10).flatten).reverse.find? fun op => op.Word == k := by
  have hw0 : WellKeyed [] := ⟨List.nodup_nil, fun e he => by simp at he⟩
  obtain ⟨⟨h1, h2⟩, h3⟩ := scrapeRows_spec _ [] spec hw0 h
  refine ⟨h1, h2, fun k => ?_⟩
  rw [h3 k]
  exact lastNamed_none _ k

/-- Two rows that both resolve to `OP_X`: the map holds one entry for `OP_X`,
the Opcode of the later row. -/
theorem NewFromBitcoinWiki_last_write_wins_witness :
    ([("OP_X".toList,
        ({ Word := "OP_X".toList, WordAlt := [], Opcode := "0x02".toList
           Input := [], Output := [], Short := "later".toList } : Opcode))].map
      Prod.fst).Nodup ∧
    (∀ e ∈ [("OP_X".toList,
        ({ Word := "OP_X".toList, WordAlt := [], Opcode := "0x02".toList
           Input := [], Output := [], Short := "later".toList } : Opcode))],
      e.2.Word = e.1) ∧
    ∀ k, [("OP_X".toList,
        ({ Word := "OP_X".toList, WordAlt := [], Opcode := "0x02".toList
           Input := [], Output := [], Short := "later".toList } : Opcode))].lookup k =
      (emitted ([[["OP_X".toList, "1".toList, "0x01".toList, "earlier".toList],
          ["OP_X".toList, "2".toList, "0x02".toList, "later".toList]]].take 10).flatten
        ).reverse.find? fun op => op.Word == k :=
  NewFromBitcoinWiki_last_write_wins
    [[["OP_X".toList, "1".toList, "0x01".toList, "earlier".toList],
      ["OP_X".toList, "2".toList, "0x02".toList, "later".toList]]]
    [("OP_X".toList,
        ({ Word := "OP_X".toList, WordAlt := [], Opcode := "0x02".toList
           Input := [], Output := [], Short := "later".toList } : Opcode))]
    (by decide)

/-- The map built from an alias row and a later single row of the same name:
`OP_NOP` is overwritten, `OP_RESERVED` is kept. -/
theorem NewFromBitcoinWiki_overwrite_example :
    NewFromBitcoinWiki
        [[["OP_NOP, OP_RESERVED".toList, "97".toList, "0x61".toList, "first".toList]],
         [[], ["OP_NOP".toList, "97".toList, "0x61".toList, "second".toList]]] =
      Except.ok
        [("OP_NOP".toList,
            { Word := "OP_NOP".toList, WordAlt := [], Opcode := "0x61".toList
              Input := [], Output := [], Short := "second".toList }),
         ("OP_RESERVED".toList,
            { Word := "OP_RESERVED".toList, WordAlt := "OP_NOP".toList
              Opcode := "0x61".toList, Input := [], Output := []
              Short := "first".toList })] := by
  decide

/-! ## The range expansion in detail -/

theorem rangeLoop_eq (leftPre : Str) (leftN rightN opcodeLeft outputLeft : Int)
    (e : Bool) (input short : Str) (ops : List Opcode) :
    rangeLoop leftPre leftN rightN opcodeLeft outputLeft e input short ops =
      if leftN ≤ rightN ∧ rightN = maxInt then Except.error Fault.loopNeverExits
      else Except.ok (ops ++ (List.range (rightN + 1 - leftN).toNat).map
        (rangeOp leftPre leftN opcodeLeft outputLeft e input short)) := rfl

theorem Atoi_range (s : Str) (v : Int) (h : Atoi s = some v) :
    -9223372036854775808 ≤ v ∧ v ≤ 9223372036854775807 := by
  unfold Atoi at h
  simp only [] at h
  repeat' split at h
  all_goals first
    | (simp only [Option.some.injEq] at h; omega)
    | simp at h

/-- What a returning range expansion did: either a parse failed and `ops` came
back unchanged, or every parse succeeded and the loop appended its Opcodes. -/
theorem expandRange_cases (leftOp rightOp opcodeDec input output short : Str)
    (ops res : List Opcode)
    (h : expandRange leftOp rightOp opcodeDec input output short ops = Except.ok res) :
    res = ops ∨
    ∃ m0 lp ld m0' rp rd x y, ∃ leftN rightN c o : Int, ∃ e : Bool,
      opNumber leftOp = some (m0, lp, ld) ∧ opNumber rightOp = some (m0', rp, rd) ∧
      Atoi ld = some leftN ∧ Atoi rd = some rightN ∧
      Split opcodeDec ['-'] = [x, y] ∧ Atoi x = some c ∧
      ((e = true ∧ output = []) ∨
        (e = false ∧ output ≠ [] ∧ ∃ u v, Split output ['-'] = [u, v] ∧ Atoi u = some o)) ∧
      ¬ (leftN ≤ rightN ∧ rightN = maxInt) ∧
      res = ops ++ (List.range (rightN + 1 - leftN).toNat).map
        (rangeOp lp leftN c o e input short) := by
  unfold expandRange at h
  split at h
  next m0 lp ld m0' rp rd hl hr =>
    split at h
    · left; simpa using h.symm
    next leftN hln =>
      split at h
      · left; simpa using h.symm
      next rightN hrn =>
        split at h
        next x y hxy =>
          split at h
          · left; simpa using h.symm
          next c hc =>
            split at h
            next hlen =>
              rw [rangeLoop_eq] at h
              split at h
              · exact absurd h (by simp)
              next hne =>
                right
                refine ⟨m0, lp, ld, m0', rp, rd, x, y, leftN, rightN, c, 0, true, hl, hr, hln,
                  hrn, hxy, hc, Or.inl ⟨rfl, List.length_eq_zero.1 hlen⟩, hne, ?_⟩
                simpa using h.symm
            next hlen =>
              split at h
              next u v huv =>
                split at h
                · left; simpa using h.symm
                next o ho =>
                  rw [rangeLoop_eq] at h
                  split at h
                  · exact absurd h (by simp)
                  next hne =>
                    right
                    refine ⟨m0, lp, ld, m0', rp, rd, x, y, leftN, rightN, c, o, false, hl, hr,
                      hln, hrn, hxy, hc,
                      Or.inr ⟨rfl, fun hnil => hlen (by rw [hnil]; rfl), u, v, huv, ho⟩, hne, ?_⟩
                    simpa using h.symm
              · left; simpa using h.symm
        · left; simpa using h.symm
  · left; simpa using h.symm

theorem classify_cases (word opcodeDec opcode input output short : Str)
    (res : List Opcode)
    (h : classify word opcodeDec opcode input output short = Except.ok res) :
    res = namedOps (altsOf word) opcode input output short ∨
    ∃ leftOp rightOp dec, expandRange leftOp rightOp dec input output short
      (namedOps (altsOf word) opcode input output short) = Except.ok res := by
  unfold classify at h
  simp only [] at h
  by_cases hb : (Split word [',', ' ']).length = 2 ∧ (Split word ['-']).length = 2
  · have ha : altsOf word = [(Split word [',', ' ']).headD []] := by simp [altsOf, hb]
    rw [if_pos hb] at h
    rw [ha]
    split at h
    · split at h
      · exact Or.inr ⟨_, _, _, h⟩
      · left; simpa using h.symm
    · exact absurd h (by simp)
  · have ha : altsOf word = Split word [',', ' '] := by simp only [altsOf, if_neg hb]
    rw [if_neg hb] at h
    rw [ha]
    split at h
    · exact Or.inr ⟨_, _, _, h⟩
    · left; simpa using h.symm

theorem classify_alias_range (word opcodeDec opcode input output short A BC B C yz : Str)
    (halts : Split word [',', ' '] = [A, BC]) (hr : Count word ['-'] = 1)
    (hBC : Split BC ['-'] = [B, C]) (hdec : (Split opcodeDec [',', ' ']).get? 1 = some yz) :
    classify word opcodeDec opcode input output short =
      expandRange B C yz input output short
        [{ Word := cleanWord A, WordAlt := [], Opcode := opcode
           Input := input, Output := output, Short := short }] := by
  have hl : (Split word ['-']).length = 2 := by rw [length_Split, hr]
  have hdec' : (Split opcodeDec [',', ' '])[1]? = some yz := by
    rw [← List.get?_eq_getElem?]
    exact hdec
  simp [classify, halts, hl, index, hdec', hBC, namedOps]

theorem digitValue_digitChar : ∀ d, d < 16 → digitValue (Nat.digitChar d) = d := by
  decide

theorem digitChar_ne_hyphen : ∀ d, d < 16 → Nat.digitChar d ≠ '-' := by
  decide

theorem readDigits_toDigitsCore (b : Nat) (hb : 2 ≤ b) (hb' : b ≤ 16) (fuel n : Nat)
    (ds : Str) (h : n < fuel) :
    readDigits b 0 (Nat.toDigitsCore b fuel n ds) = readDigits b n ds := by
  induction fuel generalizing n ds with
  | zero => omega
  | succ fuel ih =>
    have hmod : n % b < 16 := lt_of_lt_of_le (Nat.mod_lt n (by omega)) hb'
    have hv := digitValue_digitChar _ hmod
    unfold Nat.toDigitsCore
    simp only []
    split
    next h0 =>
      have hlt : n < b := by
        by_contra hge
        have : 0 < n / b := Nat.div_pos (by omega) (by omega)
        omega
      rw [readDigits, hv, Nat.mod_eq_of_lt hlt, Nat.zero_mul, Nat.zero_add]
    next h0 =>
      have hpos : 0 < n := by
        rcases Nat.eq_zero_or_pos n with hz | hz
        · rw [hz, Nat.zero_div] at h0
          exact absurd rfl h0
        · exact hz
      have hlt : n / b < fuel := by
        have := Nat.div_lt_self hpos (by omega : 1 < b)
        omega
      rw [ih _ _ hlt, readDigits, hv, Nat.div_add_mod']

theorem readDigits_toDigits (b : Nat) (hb : 2 ≤ b) (hb' : b ≤ 16) (n : Nat) :
    readDigits b 0 (Nat.toDigits b n) = n := by
  unfold Nat.toDigits
  rw [readDigits_toDigitsCore b hb hb' _ _ _ (Nat.lt_succ_self n)]
  rfl

theorem toDigits_injective (b : Nat) (hb : 2 ≤ b) (hb' : b ≤ 16) (n m : Nat)
    (h : Nat.toDigits b n = Nat.toDigits b m) : n = m := by
  have := congrArg (readDigits b 0) h
  rwa [readDigits_toDigits b hb hb', readDigits_toDigits b hb hb'] at this

theorem toDigitsCore_no_hyphen (b : Nat) (hb : 0 < b) (hb' : b ≤ 16) (fuel n : Nat)
    (ds : Str) (h : '-' ∉ ds) : '-' ∉ Nat.toDigitsCore b fuel n ds := by
  induction fuel generalizing n ds with
  | zero => simpa [Nat.toDigitsCore] using h
  | succ fuel ih =>
    have hmod : n % b < 16 := lt_of_lt_of_le (Nat.mod_lt n hb) hb'
    have hd := digitChar_ne_hyphen _ hmod
    have h' : '-' ∉ Nat.digitChar (n % b) :: ds := by
      intro hm
      rcases List.mem_cons.1 hm with hm | hm
      · exact hd hm.symm
      · exact h hm
    unfold Nat.toDigitsCore
    simp only []
    split
    · exact h'
    · exact ih _ _ h'

theorem toDigits_no_hyphen (b : Nat) (hb : 0 < b) (hb' : b ≤ 16) (n : Nat) :
    '-' ∉ Nat.toDigits b n :=
  toDigitsCore_no_hyphen b hb hb' _ _ _ (by simp)

theorem signed_digits_injective (b : Nat) (hb : 2 ≤ b) (hb' : b ≤ 16) (i j : Int)
    (h : (if i < 0 then '-' :: Nat.toDigits b i.natAbs else Nat.toDigits b i.natAbs) =
      (if j < 0 then '-' :: Nat.toDigits b j.natAbs else Nat.toDigits b j.natAbs)) :
    i = j := by
  have hno := toDigits_no_hyphen b (by omega) hb'
  by_cases hi : i < 0 <;> by_cases hj : j < 0
  · rw [if_pos hi, if_pos hj] at h
    have := toDigits_injective b hb hb' _ _ (List.cons.inj h).2
    omega
  · rw [if_pos hi, if_neg hj] at h
    exact absurd (h ▸ List.mem_cons_self _ _) (hno _)
  · rw [if_neg hi, if_pos hj] at h
    exact absurd (h.symm ▸ List.mem_cons_self _ _) (hno _)
  · rw [if_neg hi, if_neg hj] at h
    have := toDigits_injective b hb hb' _ _ h
    omega

theorem fmtD_injective (i j : Int) (h : fmtD i = fmtD j) : i = j :=
  signed_digits_injective 10 (by decide) (by decide) i j h

theorem fmtX_injective (i j : Int) (h : fmtX i = fmtX j) : i = j :=
  signed_digits_injective 16 (by decide) (by decide) i j h

theorem wrap64_offset_injective (c l : Int) (k1 k2 : Nat)
    (h1 : k1 < 18446744073709551616) (h2 : k2 < 18446744073709551616)
    (h : wrap64 (wrap64 (c + (l + (k1 : Int))) - l) =
      wrap64 (wrap64 (c + (l + (k2 : Int))) - l)) : k1 = k2 := by
  unfold wrap64 at h
  omega

/-- The Opcodes of a range loop of fewer than `2^64` rounds have pairwise
distinct Words and pairwise distinct codes. -/
theorem rangeOp_nodup (lp : Str) (leftN c o : Int) (e : Bool) (input short : Str)
    (n : Nat) (hn : n ≤ 18446744073709551616) :
    (((List.range n).map (rangeOp lp leftN c o e input short)).map Opcode.Word).Nodup ∧
    (((List.range n).map (rangeOp lp leftN c o e input short)).map Opcode.Opcode).Nodup := by
  rw [List.map_map, List.map_map]
  constructor
  · refine List.Nodup.map_on ?_ (List.nodup_range n)
    intro k1 _ k2 _ hk
    have h1 := fmtD_injective _ _ (List.append_cancel_left hk)
    omega
  · refine List.Nodup.map_on ?_ (List.nodup_range n)
    intro k1 hk1 k2 hk2 hk
    have hk1' := List.mem_range.1 hk1
    have hk2' := List.mem_range.1 hk2
    have h1 := fmtX_injective _ _ (List.append_cancel_left hk)
    exact wrap64_offset_injective c leftN k1 k2 (by omega) (by omega) h1

theorem namedOps_fields (alts : List Str) (opcode input output short : Str) (op : Opcode)
    (h : op ∈ namedOps alts opcode input output short) :
    op.Input = input ∧ op.Output = output ∧ op.Short = short := by
  unfold namedOps at h
  split at h
  · simp only [List.mem_singleton] at h
    subst h
    exact ⟨rfl, rfl, rfl⟩
  · simp only [List.mem_cons, List.mem_singleton, List.not_mem_nil, or_false] at h
    rcases h with h | h <;> subst h <;> exact ⟨rfl, rfl, rfl⟩
  · simp at h

/-- The Opcodes a returning range expansion appended to `ops`. -/
theorem expandRange_appended (leftOp rightOp opcodeDec input output short : Str)
    (ops res : List Opcode)
    (h : expandRange leftOp rightOp opcodeDec input output short ops = Except.ok res) :
    ∃ extra, res = ops ++ extra ∧
      (∀ op ∈ extra, op.WordAlt = [] ∧ op.Input = input ∧ op.Short = short ∧
        (output = [] → op.Output = [])) ∧
      (extra.map Opcode.Word).Nodup ∧ (extra.map Opcode.Opcode).Nodup := by
  rcases expandRange_cases _ _ _ _ _ _ _ _ h with h0 |
    ⟨m0, lp, ld, m0', rp, rd, x, y, leftN, rightN, c, o, e, _, _, hln, hrn, _, _, hout, hne,
      hres⟩
  · exact ⟨[], by simp [h0], by simp, by simp, by simp⟩
  · have hl := Atoi_range _ _ hln
    have hr := Atoi_range _ _ hrn
    have hn : (rightN + 1 - leftN).toNat ≤ 18446744073709551616 := by
      unfold maxInt at hne
      omega
    obtain ⟨hw, hc⟩ := rangeOp_nodup lp leftN c o e input short _ hn
    refine ⟨_, hres, ?_, hw, hc⟩
    intro op hop
    obtain ⟨k, _, rfl⟩ := List.mem_map.1 hop
    refine ⟨rfl, rfl, rfl, ?_⟩
    intro hnil
    rcases hout with ⟨he, _⟩ | ⟨_, hne', _⟩
    · simp [rangeOp, he]
    · exact absurd hnil hne'

theorem expandRange_bad_output (leftOp rightOp opcodeDec input output short : Str)
    (ops : List Opcode) (hne : output ≠ [])
    (hbad : (Split output ['-']).length ≠ 2 ∨
      Atoi ((Split output ['-']).headD []) = none) :
    expandRange leftOp rightOp opcodeDec input output short ops = Except.ok ops := by
  have hlen : ¬ output.length = 0 := fun h => hne (List.length_eq_zero.1 h)
  unfold expandRange
  repeat' split
  all_goals first
    | rfl
    | (rcases hbad with hb | hb <;> simp_all)

/-- A returning call on an opcode row of at least three cells: the Opcodes of
the single-name and alias branches, then those the range expansion appended. -/
theorem cellsToOps_decomp (c0 c1 c2 : Str) (rest : List Str) (ops : List Opcode)
    (hp : HasPrefix (TrimSpace c0) opPrefix = true)
    (h : cellsToOps (c0 :: c1 :: c2 :: rest) = Except.ok ops) :
    ∃ extra,
      ops = namedOps (altsOf (TrimSpace c0)) (TrimSpace c2)
        (rowInput (c0 :: c1 :: c2 :: rest)) (rowOutput (c0 :: c1 :: c2 :: rest))
        (rowShort (c0 :: c1 :: c2 :: rest)) ++ extra ∧
      (∀ op ∈ extra, op.WordAlt = [] ∧ op.Input = rowInput (c0 :: c1 :: c2 :: rest) ∧
        op.Short = rowShort (c0 :: c1 :: c2 :: rest) ∧
        (rowOutput (c0 :: c1 :: c2 :: rest) = [] → op.Output = [])) ∧
      (extra.map Opcode.Word).Nodup ∧ (extra.map Opcode.Opcode).Nodup := by
  rw [cellsToOps_cons3] at h
  simp only [hp, Bool.not_true, Bool.false_eq_true, if_false] at h
  rcases classify_cases _ _ _ _ _ _ _ h with h0 | ⟨l, r, dec, he⟩
  · exact ⟨[], by simp [h0], by simp, by simp, by simp⟩
  · exact expandRange_appended _ _ _ _ _ _ _ _ he

/-! ## The claims on range rows -/

theorem Split_of_Count_zero (s sep : Str) (h : Count s sep = 0) : Split s sep = [s] := by
  unfold Split
  unfold Count at h
  induction s with
  | nil => rfl
  | cons c cs ih =>
    simp only [countFrom] at h
    simp only [splitFrom]
    split
    next hpre => simp [hpre] at h
    next hpre =>
      simp only [hpre, Bool.false_eq_true, if_false] at h
      rw [ih h]
      rfl

/-- C11: a row of at least three cells whose trimmed name cell has the form
`A, B-C` (one `", "`, one `"-"`) and whose trimmed decimal-code cell has the
form `x, y-z` is read as a range. The call is the range expansion of `B` and
`C` with the code cell `y-z`, started from the one Opcode of the single-name
branch for `A`; when it returns, every Opcode has an empty WordAlt, the first
one is that of `A`, and the first Opcode after it, if any, has the code `0x`
followed by the hexadecimal of the integer `y`. -/
theorem cellsToOps_alias_range (c0 c1 c2 : Str) (rest : List Str)
    (A BC B C x yz y z : Str)
    (hp : HasPrefix (TrimSpace c0) opPrefix = true)
    (halts : Split (TrimSpace c0) [',', ' '] = [A, BC])
    (hr : Count (TrimSpace c0) ['-'] = 1) (hBC : Split BC ['-'] = [B, C])
    (hdec : Split (TrimSpace c1) [',', ' '] = [x, yz]) (hyz : Split yz ['-'] = [y, z]) :
    cellsToOps (c0 :: c1 :: c2 :: rest) =
      expandRange B C yz (rowInput (c0 :: c1 :: c2 :: rest))
        (rowOutput (c0 :: c1 :: c2 :: rest)) (rowShort (c0 :: c1 :: c2 :: rest))
        [⟨cleanWord A, [], TrimSpace c2, rowInput (c0 :: c1 :: c2 :: rest),
          rowOutput (c0 :: c1 :: c2 :: rest), rowShort (c0 :: c1 :: c2 :: rest)⟩] ∧
    ∀ ops, cellsToOps (c0 :: c1 :: c2 :: rest) = Except.ok ops →
      (∀ op ∈ ops, op.WordAlt = []) ∧
      ∃ extra,
        ops = ⟨cleanWord A, [], TrimSpace c2, rowInput (c0 :: c1 :: c2 :: rest),
          rowOutput (c0 :: c1 :: c2 :: rest), rowShort (c0 :: c1 :: c2 :: rest)⟩ :: extra ∧
        ∀ e ∈ extra.head?, ∃ c, Atoi y = some c ∧ e.Opcode = ['0', 'x'] ++ fmtX c := by
  have hcall : cellsToOps (c0 :: c1 :: c2 :: rest) =
      expandRange B C yz (rowInput (c0 :: c1 :: c2 :: rest))
        (rowOutput (c0 :: c1 :: c2 :: rest)) (rowShort (c0 :: c1 :: c2 :: rest))
        [⟨cleanWord A, [], TrimSpace c2, rowInput (c0 :: c1 :: c2 :: rest),
          rowOutput (c0 :: c1 :: c2 :: rest), rowShort (c0 :: c1 :: c2 :: rest)⟩] := by
    rw [cellsToOps_cons3, classify_alias_range _ _ _ _ _ _ A BC B C yz halts hr hBC
      (by rw [hdec]; rfl)]
    simp [hp]
  refine ⟨hcall, ?_⟩
  intro ops hops
  rw [hcall] at hops
  rcases expandRange_cases _ _ _ _ _ _ _ _ hops with h0 |
    ⟨m0, lp, ld, m0', rp, rd, x', y', leftN, rightN, c, o, e, _, _, _, _, hxy, hc, _, _, hres⟩
  · subst h0
    exact ⟨by simp, [], rfl, by simp⟩
  · subst hres
    refine ⟨?_, _, rfl, ?_⟩
    · intro op hop
      rcases List.mem_append.1 hop with h1 | h1
      · simp only [List.mem_singleton] at h1
        subst h1
        rfl
      · obtain ⟨k, _, rfl⟩ := List.mem_map.1 h1
        rfl
    · intro e' he'
      rw [hyz] at hxy
      simp only [List.cons.injEq, and_true] at hxy
      obtain ⟨rfl, rfl⟩ := hxy
      refine ⟨c, hc, ?_⟩
      have hcr := Atoi_range _ _ hc
      cases hn : (rightN + 1 - leftN).toNat with
      | zero => simp [hn] at he'
      | succ n =>
        have he2 : rangeOp lp leftN c o e (rowInput (c0 :: c1 :: c2 :: rest))
            (rowShort (c0 :: c1 :: c2 :: rest)) 0 = e' := by
          simpa [hn, List.range_succ_eq_map] using he'
        subst he2
        have hw : wrap64 (wrap64 (c + (leftN + ((0 : Nat) : Int))) - leftN) = c := by
          unfold wrap64
          omega
        simp only [rangeOp, hw]

/-- The row `OP_NOP1, OP_NOP4-OP_NOP10` of the wiki: the call is the range
expansion of `OP_NOP4` and `OP_NOP10` with the code cell `179-185`. -/
theorem cellsToOps_alias_range_witness :
    cellsToOps ["OP_NOP1, OP_NOP4-OP_NOP10".toList, "176, 179-185".toList,
        "0xb0, 0xb3-0xb9".toList, "Reserved words.".toList] =
      expandRange "OP_NOP4".toList "OP_NOP10".toList "179-185".toList
        (rowInput ["OP_NOP1, OP_NOP4-OP_NOP10".toList, "176, 179-185".toList,
          "0xb0, 0xb3-0xb9".toList, "Reserved words.".toList])
        (rowOutput ["OP_NOP1, OP_NOP4-OP_NOP10".toList, "176, 179-185".toList,
          "0xb0, 0xb3-0xb9".toList, "Reserved words.".toList])
        (rowShort ["OP_NOP1, OP_NOP4-OP_NOP10".toList, "176, 179-185".toList,
          "0xb0, 0xb3-0xb9".toList, "Reserved words.".toList])
        [⟨cleanWord "OP_NOP1".toList, [], TrimSpace "0xb0, 0xb3-0xb9".toList,
          rowInput ["OP_NOP1, OP_NOP4-OP_NOP10".toList, "176, 179-185".toList,
            "0xb0, 0xb3-0xb9".toList, "Reserved words.".toList],
          rowOutput ["OP_NOP1, OP_NOP4-OP_NOP10".toList, "176, 179-185".toList,
            "0xb0, 0xb3-0xb9".toList, "Reserved words.".toList],
          rowShort ["OP_NOP1, OP_NOP4-OP_NOP10".toList, "176, 179-185".toList,
            "0xb0, 0xb3-0xb9".toList, "Reserved words.".toList]⟩] :=
  (cellsToOps_alias_range "OP_NOP1, OP_NOP4-OP_NOP10".toList "176, 179-185".toList
    "0xb0, 0xb3-0xb9".toList ["Reserved words.".toList]
    "OP_NOP1".toList "OP_NOP4-OP_NOP10".toList "OP_NOP4".toList "OP_NOP10".toList
    "176".toList "179-185".toList "179".toList "185".toList
    (by decide) (by decide) (by decide) (by decide) (by decide) (by decide)).1

/-- The eight Opcodes of the row `OP_NOP1, OP_NOP4-OP_NOP10`, written out. -/
theorem cellsToOps_alias_range_example :
    cellsToOps ["OP_NOP1, OP_NOP4-OP_NOP10".toList, "176, 179-185".toList,
        "0xb0, 0xb3-0xb9".toList, "Reserved words.".toList] =
      Except.ok
        [⟨"OP_NOP1".toList, [], "0xb0, 0xb3-0xb9".toList, [], [], "Reserved words.".toList⟩,
         ⟨"OP_NOP4".toList, [], "0xb3".toList, [], [], "Reserved words.".toList⟩,
         ⟨"OP_NOP5".toList, [], "0xb4".toList, [], [], "Reserved words.".toList⟩,
         ⟨"OP_NOP6".toList, [], "0xb5".toList, [], [], "Reserved words.".toList⟩,
         ⟨"OP_NOP7".toList, [], "0xb6".toList, [], [], "Reserved words.".toList⟩,
         ⟨"OP_NOP8".toList, [], "0xb7".toList, [], [], "Reserved words.".toList⟩,
         ⟨"OP_NOP9".toList, [], "0xb8".toList, [], [], "Reserved words.".toList⟩,
         ⟨"OP_NOP10".toList, [], "0xb9".toList, [], [], "Reserved words.".toList⟩] := by
  decide

/-- C12, the claim as written fails: the output cell `1-abc` does not split
into two integers, yet the range is expanded. Only the left part of the output
cell is parsed; `abc` is never read. -/
theorem cellsToOps_output_right_part_counterexample :
    cellsToOps ["OP_1-OP_2".toList, "81-82".toList, "0x51-0x52".toList,
        "Nothing.".toList, "1-abc".toList, "The number.".toList] =
      Except.ok
        [⟨"OP_1-OP_2".toList, [], "0x51-0x52".toList, "Nothing.".toList, "1-abc".toList,
          "The number.".toList⟩,
         ⟨"OP_1".toList, [], "0x51".toList, "Nothing.".toList, "1".toList,
          "The number.".toList⟩,
         ⟨"OP_2".toList, [], "0x52".toList, "Nothing.".toList, "2".toList,
          "The number.".toList⟩] := by
  decide

/-- C12, amended: on a six-cell opcode row whose trimmed output cell is not
empty and either does not split on `"-"` into exactly two parts or has a left
part that is no integer, the range expansion appends nothing: a returning call
yields the Opcodes of the single-name and alias branches alone, and on a range
row `X-Y` without `", "` the call returns exactly the one Opcode of the
single-name branch. -/
theorem cellsToOps_malformed_output (c0 c1 c2 c3 c4 c5 : Str)
    (hp : HasPrefix (TrimSpace c0) opPrefix = true) (hne : TrimSpace c4 ≠ [])
    (hbad : (Split (TrimSpace c4) ['-']).length ≠ 2 ∨
      Atoi ((Split (TrimSpace c4) ['-']).headD []) = none) :
    (∀ ops, cellsToOps [c0, c1, c2, c3, c4, c5] = Except.ok ops →
      ops = namedOps (altsOf (TrimSpace c0)) (TrimSpace c2) (TrimSpace c3) (TrimSpace c4)
        (TrimSpace c5)) ∧
    (Count (TrimSpace c0) [',', ' '] = 0 → Count (TrimSpace c0) ['-'] = 1 →
      cellsToOps [c0, c1, c2, c3, c4, c5] =
        Except.ok [⟨cleanWord (TrimSpace c0), [], TrimSpace c2, TrimSpace c3, TrimSpace c4,
          TrimSpace c5⟩]) := by
  have hin : rowInput [c0, c1, c2, c3, c4, c5] = TrimSpace c3 := rfl
  have hou : rowOutput [c0, c1, c2, c3, c4, c5] = TrimSpace c4 := rfl
  have hsh : rowShort [c0, c1, c2, c3, c4, c5] = TrimSpace c5 := rfl
  have hcall := cellsToOps_cons3 c0 c1 c2 [c3, c4, c5]
  simp only [hp, Bool.not_true, Bool.false_eq_true, if_false, hin, hou, hsh] at hcall
  constructor
  · intro ops hops
    rw [hcall] at hops
    rcases classify_cases _ _ _ _ _ _ _ hops with h0 | ⟨l, r, dec, he⟩
    · exact h0
    · rw [expandRange_bad_output _ _ _ _ _ _ _ hne hbad] at he
      simpa using he.symm
  · intro hc hr
    have hl : (Split (TrimSpace c0) ['-']).length = 2 := by rw [length_Split, hr]
    obtain ⟨l, r, hlr⟩ := list_length_two _ hl
    have hs := Split_of_Count_zero _ _ hc
    rw [hcall, classify_range _ _ _ _ _ _ l r hc hlr,
      expandRange_bad_output _ _ _ _ _ _ _ hne hbad, hs]
    rfl

/-- The six-cell row `OP_1-OP_2` with the output cell `abc-1`: the Opcode of
the single-name branch alone. -/
theorem cellsToOps_malformed_output_witness :
    cellsToOps ["OP_1-OP_2".toList, "81-82".toList, "0x51-0x52".toList,
        "Nothing.".toList, "abc-1".toList, "The number.".toList] =
      Except.ok [⟨cleanWord (TrimSpace "OP_1-OP_2".toList), [],
        TrimSpace "0x51-0x52".toList, TrimSpace "Nothing.".toList,
        TrimSpace "abc-1".toList, TrimSpace "The number.".toList⟩] :=
  (cellsToOps_malformed_output "OP_1-OP_2".toList "81-82".toList "0x51-0x52".toList
    "Nothing.".toList "abc-1".toList "The number.".toList
    (by decide) (by decide) (by decide)).2 (by decide) (by decide)

/-- C13: in a returning call on an opcode row of at least three cells, the
Opcodes the range expansion appended (those after the Opcodes of the
single-name and alias branches) have pairwise distinct Words and pairwise
distinct codes, and every one of them has an empty WordAlt. -/
theorem cellsToOps_expansion_distinct (c0 c1 c2 : Str) (rest : List Str)
    (ops : List Opcode) (hp : HasPrefix (TrimSpace c0) opPrefix = true)
    (h : cellsToOps (c0 :: c1 :: c2 :: rest) = Except.ok ops) :
    ∃ extra,
      ops = namedOps (altsOf (TrimSpace c0)) (TrimSpace c2)
        (rowInput (c0 :: c1 :: c2 :: rest)) (rowOutput (c0 :: c1 :: c2 :: rest))
        (rowShort (c0 :: c1 :: c2 :: rest)) ++ extra ∧
      (extra.map Opcode.Word).Nodup ∧ (extra.map Opcode.Opcode).Nodup ∧
      ∀ op ∈ extra, op.WordAlt = [] := by
  obtain ⟨extra, h1, h2, h3, h4⟩ := cellsToOps_decomp c0 c1 c2 rest ops hp h
  exact ⟨extra, h1, h3, h4, fun op hop => (h2 op hop).1⟩

/-- The row `OP_1-OP_16`: the sixteen Opcodes after the one named `OP_1-OP_16`
have distinct Words and distinct codes. -/
theorem cellsToOps_expansion_distinct_witness :
    ∃ extra,
      (⟨"OP_1-OP_16".toList, [], "0x51-0x60".toList, "Nothing.".toList, "1-16".toList,
          "The number.".toList⟩ ::
        (List.range 16).map fun k =>
          (⟨"OP_".toList ++ Nat.toDigits 10 (k + 1), [],
            "0x".toList ++ Nat.toDigits 16 (81 + k), "Nothing.".toList,
            Nat.toDigits 10 (k + 1), "The number.".toList⟩ : Opcode)) =
        namedOps (altsOf (TrimSpace "OP_1-OP_16".toList)) (TrimSpace "0x51-0x60".toList)
          (rowInput ["OP_1-OP_16".toList, "81-96".toList, "0x51-0x60".toList,
            "Nothing.".toList, "1-16".toList, "The number.".toList])
          (rowOutput ["OP_1-OP_16".toList, "81-96".toList, "0x51-0x60".toList,
            "Nothing.".toList, "1-16".toList, "The number.".toList])
          (rowShort ["OP_1-OP_16".toList, "81-96".toList, "0x51-0x60".toList,
            "Nothing.".toList, "1-16".toList, "The number.".toList]) ++ extra ∧
      (extra.map Opcode.Word).Nodup ∧ (extra.map Opcode.Opcode).Nodup ∧
      ∀ op ∈ extra, op.WordAlt = [] :=
  cellsToOps_expansion_distinct "OP_1-OP_16".toList "81-96".toList "0x51-0x60".toList
    ["Nothing.".toList, "1-16".toList, "The number.".toList] _ (by decide) (by decide)

/-- C14, the claim as written fails: the bounds of `OP_1-OP_2` parse and the
decimal-code cell is `81-82`, but the output cell `Nothing.` is not empty and
is no range, so the expansion appends no Opcode where the claim counts two. -/
theorem cellsToOps_expansion_gate_counterexample :
    cellsToOps ["OP_1-OP_2".toList, "81-82".toList, "0x51-0x52".toList,
        "Nothing.".toList, "Nothing.".toList, "The number.".toList] =
      Except.ok
        [⟨"OP_1-OP_2".toList, [], "0x51-0x52".toList, "Nothing.".toList,
          "Nothing.".toList, "The number.".toList⟩] := by
  decide

/-- C14, amended: take a range row `X-Y` without `", "` whose bounds parse as
`(leftPre, leftN)` and `(rightPre, rightN)`, whose decimal-code cell is `c-d`
with an integer `c`, and whose output variable is empty or a cell `o-p` with an
integer `o`; let `rightN` be below the largest `int` and `c + (rightN - leftN)`
within `int`. After the Opcode of the single-name branch the call returns
exactly `max 0 (rightN - leftN + 1)` Opcodes, in ascending order of `i` from
`leftN` to `rightN`: the one for `i = leftN + k` has the Word `leftPre`
followed by the decimal of `i` and the code `0x` followed by the hexadecimal
of `c + k`. A descending range appends none. -/
theorem cellsToOps_expansion_exact (c0 c1 c2 : Str) (rest : List Str)
    (l r m0 lp ld m0' rp rd x y : Str) (leftN rightN c : Int)
    (hp : HasPrefix (TrimSpace c0) opPrefix = true)
    (hc : Count (TrimSpace c0) [',', ' '] = 0)
    (hsplit : Split (TrimSpace c0) ['-'] = [l, r])
    (hl : opNumber l = some (m0, lp, ld)) (hr : opNumber r = some (m0', rp, rd))
    (hln : Atoi ld = some leftN) (hrn : Atoi rd = some rightN)
    (hdec : Split (TrimSpace c1) ['-'] = [x, y]) (hx : Atoi x = some c)
    (hout : rowOutput (c0 :: c1 :: c2 :: rest) = [] ∨
      ∃ u v o, Split (rowOutput (c0 :: c1 :: c2 :: rest)) ['-'] = [u, v] ∧ Atoi u = some o)
    (hterm : rightN < maxInt) (hnowrap : c + (rightN - leftN) ≤ maxInt) :
    ∃ extra,
      cellsToOps (c0 :: c1 :: c2 :: rest) =
        Except.ok (⟨cleanWord (TrimSpace c0), [], TrimSpace c2,
          rowInput (c0 :: c1 :: c2 :: rest), rowOutput (c0 :: c1 :: c2 :: rest),
          rowShort (c0 :: c1 :: c2 :: rest)⟩ :: extra) ∧
      extra.map (fun op => (op.Word, op.Opcode)) =
        (List.range (rightN + 1 - leftN).toNat).map fun (k : Nat) =>
          (lp ++ fmtD (leftN + (k : Int)), ['0', 'x'] ++ fmtX (c + (k : Int))) := by
  have hcr := Atoi_range _ _ hx
  have hne : ¬ (leftN ≤ rightN ∧ rightN = maxInt) := fun h => by
    have := h.2
    omega
  have hmap : ∀ (o : Int) (e : Bool),
      ((List.range (rightN + 1 - leftN).toNat).map
        (rangeOp lp leftN c o e (rowInput (c0 :: c1 :: c2 :: rest))
          (rowShort (c0 :: c1 :: c2 :: rest)))).map (fun op => (op.Word, op.Opcode)) =
      (List.range (rightN + 1 - leftN).toNat).map fun (k : Nat) =>
        (lp ++ fmtD (leftN + (k : Int)), ['0', 'x'] ++ fmtX (c + (k : Int))) := by
    intro o e
    rw [List.map_map]
    refine List.map_congr_left ?_
    intro k hk
    have hk' := List.mem_range.1 hk
    have hw : wrap64 (wrap64 (c + (leftN + (k : Int))) - leftN) = c + (k : Int) := by
      unfold maxInt at hnowrap
      unfold wrap64
      omega
    simp only [Function.comp, rangeOp, hw]
  have hcall : cellsToOps (c0 :: c1 :: c2 :: rest) =
      expandRange l r (TrimSpace c1) (rowInput (c0 :: c1 :: c2 :: rest))
        (rowOutput (c0 :: c1 :: c2 :: rest)) (rowShort (c0 :: c1 :: c2 :: rest))
        [⟨cleanWord (TrimSpace c0), [], TrimSpace c2,
          rowInput (c0 :: c1 :: c2 :: rest), rowOutput (c0 :: c1 :: c2 :: rest),
          rowShort (c0 :: c1 :: c2 :: rest)⟩] := by
    rw [cellsToOps_cons3, classify_range _ _ _ _ _ _ l r hc hsplit,
      Split_of_Count_zero _ _ hc]
    simp [hp, namedOps]
  rcases hout with hnil | ⟨u, v, o, huv, hu⟩
  · refine ⟨_, ?_, hmap 0 true⟩
    rw [hcall, hnil]
    simp only [expandRange, hl, hr, hln, hrn, hdec, hx, List.length_nil, if_true,
      rangeLoop_eq, if_neg hne]
    rfl
  · by_cases hnil : rowOutput (c0 :: c1 :: c2 :: rest) = []
    · rw [hnil] at huv
      simp [Split, splitFrom] at huv
    · refine ⟨_, ?_, hmap o false⟩
      rw [hcall, expandRange_eval _ _ _ _ _ _ _ _ _ _ _ _ _ _ _ _ _ _ _ _ _ hl hr hln hrn hdec
        hx huv hu hnil, rangeLoop_eq, if_neg hne]
      rfl

/-- The four-cell row `OP_A1-OP_B3`: after the Opcode named `OP_A1-OP_B3` come
three Opcodes, named with the left prefix `OP_A`, with the codes from `0x51`. -/
theorem cellsToOps_expansion_exact_witness :
    ∃ extra,
      cellsToOps ["OP_A1-OP_B3".toList, "81-83".toList, "0x51-0x53".toList,
          "Test.".toList] =
        Except.ok (⟨cleanWord (TrimSpace "OP_A1-OP_B3".toList), [],
          TrimSpace "0x51-0x53".toList,
          rowInput ["OP_A1-OP_B3".toList, "81-83".toList, "0x51-0x53".toList, "Test.".toList],
          rowOutput ["OP_A1-OP_B3".toList, "81-83".toList, "0x51-0x53".toList, "Test.".toList],
          rowShort ["OP_A1-OP_B3".toList, "81-83".toList, "0x51-0x53".toList,
            "Test.".toList]⟩ :: extra) ∧
      extra.map (fun op => (op.Word, op.Opcode)) =
        (List.range ((3 : Int) + 1 - 1).toNat).map fun (k : Nat) =>
          ("OP_A".toList ++ fmtD (1 + (k : Int)), ['0', 'x'] ++ fmtX (81 + (k : Int))) :=
  cellsToOps_expansion_exact "OP_A1-OP_B3".toList "81-83".toList "0x51-0x53".toList
    ["Test.".toList] "OP_A1".toList "OP_B3".toList "OP_A1".toList "OP_A".toList "1".toList
    "OP_B3".toList "OP_B".toList "3".toList "81".toList "83".toList 1 3 81
    (by decide) (by decide) (by decide) (by decide) (by decide) (by decide) (by decide)
    (by decide) (by decide) (Or.inl (by decide)) (by decide) (by decide)

/-- The four Opcodes of the row `OP_A1-OP_B3`, written out. -/
theorem cellsToOps_expansion_exact_example :
    cellsToOps ["OP_A1-OP_B3".toList, "81-83".toList, "0x51-0x53".toList,
        "Test.".toList] =
      Except.ok
        [⟨"OP_A1-OP_B3".toList, [], "0x51-0x53".toList, [], [], "Test.".toList⟩,
         ⟨"OP_A1".toList, [], "0x51".toList, [], [], "Test.".toList⟩,
         ⟨"OP_A2".toList, [], "0x52".toList, [], [], "Test.".toList⟩,
         ⟨"OP_A3".toList, [], "0x53".toList, [], [], "Test.".toList⟩] ∧
    cellsToOps ["OP_3-OP_1".toList, "81-83".toList, "0x51-0x53".toList, "Test.".toList] =
      Except.ok [⟨"OP_3-OP_1".toList, [], "0x51-0x53".toList, [], [], "Test.".toList⟩] := by
  decide

/-- C15: every Opcode a call on a row of at least three cells returns (from the
single-name, alias or range branch) has the trimmed last cell as its Short;
its Input is the trimmed fourth cell when the row has exactly six cells and
is empty otherwise; and when the row has not six cells its Output is empty. -/
theorem cellsToOps_shared_fields (c0 c1 c2 : Str) (rest : List Str) (ops : List Opcode)
    (h : cellsToOps (c0 :: c1 :: c2 :: rest) = Except.ok ops) :
    ∀ op ∈ ops,
      op.Short = TrimSpace ((c0 :: c1 :: c2 :: rest).getLastD []) ∧
      op.Input = (if (c0 :: c1 :: c2 :: rest).length = 6 then TrimSpace (rest.getD 0 [])
        else []) ∧
      ((c0 :: c1 :: c2 :: rest).length ≠ 6 → op.Output = []) := by
  have hsh : rowShort (c0 :: c1 :: c2 :: rest) =
      TrimSpace ((c0 :: c1 :: c2 :: rest).getLastD []) := rfl
  have hin : rowInput (c0 :: c1 :: c2 :: rest) =
      (if (c0 :: c1 :: c2 :: rest).length = 6 then TrimSpace (rest.getD 0 []) else []) := rfl
  have hou : (c0 :: c1 :: c2 :: rest).length ≠ 6 → rowOutput (c0 :: c1 :: c2 :: rest) = [] :=
    fun hlen => if_neg hlen
  intro op hop
  by_cases hp : HasPrefix (TrimSpace c0) opPrefix = true
  · obtain ⟨extra, rfl, hex, _, _⟩ := cellsToOps_decomp c0 c1 c2 rest ops hp h
    rw [← hsh, ← hin]
    rcases List.mem_append.1 hop with h1 | h1
    · obtain ⟨h2, h3, h4⟩ := namedOps_fields _ _ _ _ _ _ h1
      exact ⟨h4, h2, fun hlen => by rw [h3, hou hlen]⟩
    · obtain ⟨_, h2, h3, h4⟩ := hex op h1
      exact ⟨h3, h2, fun hlen => h4 (hou hlen)⟩
  · rw [cellsToOps_cons3] at h
    simp only [hp, Bool.not_false, if_true, Except.ok.injEq] at h
    subst h
    simp at hop

/-- The four-cell range row `OP_1-OP_2`: its Opcode `OP_2` has the last cell as
Short and neither Input nor Output. -/
theorem cellsToOps_shared_fields_witness :
    (⟨"OP_2".toList, [], "0x52".toList, [], [], "The number.".toList⟩ : Opcode).Short =
        TrimSpace (["OP_1-OP_2".toList, "81-82".toList, "0x51-0x52".toList,
          " The number.".toList].getLastD []) ∧
      (⟨"OP_2".toList, [], "0x52".toList, [], [], "The number.".toList⟩ : Opcode).Input =
        (if ["OP_1-OP_2".toList, "81-82".toList, "0x51-0x52".toList,
            " The number.".toList].length = 6
          then TrimSpace ([" The number.".toList].getD 0 []) else []) ∧
      (["OP_1-OP_2".toList, "81-82".toList, "0x51-0x52".toList,
          " The number.".toList].length ≠ 6 →
        (⟨"OP_2".toList, [], "0x52".toList, [], [], "The number.".toList⟩ : Opcode).Output =
          []) :=
  cellsToOps_shared_fields "OP_1-OP_2".toList "81-82".toList "0x51-0x52".toList
    [" The number.".toList]
    [⟨"OP_1-OP_2".toList, [], "0x51-0x52".toList, [], [], "The number.".toList⟩,
     ⟨"OP_1".toList, [], "0x51".toList, [], [], "The number.".toList⟩,
     ⟨"OP_2".toList, [], "0x52".toList, [], [], "The number.".toList⟩]
    (by decide) _ (by decide)

/-! ## The indentation counter of `formatDisasm` -/

theorem HasPrefix_comparable (code p q : Str) (hp : HasPrefix code p = true)
    (hq : HasPrefix code q = true) : p <+: q ∨ q <+: p := by
  have h1 : p <+: code := List.isPrefixOf_iff_prefix.1 hp
  have h2 : q <+: code := List.isPrefixOf_iff_prefix.1 hq
  exact List.prefix_or_prefix_of_prefix h1 h2

theorem wrap64_id (x : Int) (h1 : -9223372036854775808 ≤ x) (h2 : x ≤ 9223372036854775807) :
    wrap64 x = x := by
  unfold wrap64
  omega

theorem wrap64_range (x : Int) :
    -9223372036854775808 ≤ wrap64 x ∧ wrap64 x ≤ 9223372036854775807 := by
  unfold wrap64
  omega

theorem wrap64_add_left (x y : Int) : wrap64 (wrap64 x + y) = wrap64 (x + y) := by
  unfold wrap64
  omega

/-- The change a returning call makes to the counter, by the prefixes of the
code: `+ step` for `OP_IF` and `OP_NOTIF`, `- step` for `OP_ENDIF`, nothing
for `OP_ELSE` (down, then up) or any other line, in 64-bit arithmetic. -/
theorem formatDisasm_counter (line : Str) (ind step ind' : Int) (out : Str)
    (h1 : -9223372036854775808 ≤ ind) (h2 : ind ≤ 9223372036854775807)
    (h : formatDisasm line ind step = (ind', Except.ok out)) :
    ind' = wrap64 (ind +
      step * ((if codeStartsWith "OP_IF".toList line || codeStartsWith "OP_NOTIF".toList line
          then 1 else 0) -
        (if codeStartsWith "OP_ENDIF".toList line then 1 else 0))) := by
  unfold formatDisasm at h
  unfold codeStartsWith
  cases hc : codeOf line with
  | none =>
    rw [hc] at h
    simp only [Prod.mk.injEq] at h
    simp [← h.1, wrap64_id ind h1 h2]
  | some code =>
    rw [hc] at h
    simp only [] at h
    have hEN : HasPrefix code "OP_ELSE".toList = true →
        HasPrefix code "OP_ENDIF".toList = false := by
      intro ha
      by_contra hb
      have := HasPrefix_comparable code _ _ ha (by simpa using hb)
      revert this
      decide
    have hEI : HasPrefix code "OP_ELSE".toList = true →
        HasPrefix code "OP_IF".toList = false := by
      intro ha
      by_contra hb
      have := HasPrefix_comparable code _ _ ha (by simpa using hb)
      revert this
      decide
    have hET : HasPrefix code "OP_ELSE".toList = true →
        HasPrefix code "OP_NOTIF".toList = false := by
      intro ha
      by_contra hb
      have := HasPrefix_comparable code _ _ ha (by simpa using hb)
      revert this
      decide
    have hNI : HasPrefix code "OP_ENDIF".toList = true →
        HasPrefix code "OP_IF".toList = false := by
      intro ha
      by_contra hb
      have := HasPrefix_comparable code _ _ ha (by simpa using hb)
      revert this
      decide
    have hNT : HasPrefix code "OP_ENDIF".toList = true →
        HasPrefix code "OP_NOTIF".toList = false := by
      intro ha
      by_contra hb
      have := HasPrefix_comparable code _ _ ha (by simpa using hb)
      revert this
      decide
    cases hE : HasPrefix code "OP_ELSE".toList <;>
      cases hN : HasPrefix code "OP_ENDIF".toList <;>
      cases hI : HasPrefix code "OP_IF".toList <;>
      cases hT : HasPrefix code "OP_NOTIF".toList <;>
      simp only [hE, hN, hI, hT, Bool.or_false, Bool.or_true, Bool.false_eq_true, if_false,
        if_true, Bool.or_self, true_implies, Bool.true_eq_false, imp_false, not_true_eq_false,
        reduceCtorEq] at h hEN hEI hET hNI hNT ⊢ <;>
      (unfold Repeat at h
       split at h
       · simp at h
       · simp only [Prod.mk.injEq] at h
         rw [← h.1]
         unfold wrap64
         omega)

theorem formatDisasm_ok_range (line : Str) (ind step ind' : Int) (out : Str)
    (h1 : -9223372036854775808 ≤ ind) (h2 : ind ≤ 9223372036854775807)
    (h : formatDisasm line ind step = (ind', Except.ok out)) :
    -9223372036854775808 ≤ ind' ∧ ind' ≤ 9223372036854775807 := by
  rw [formatDisasm_counter line ind step ind' out h1 h2 h]
  exact wrap64_range _

theorem formatLines_counter (lines : List Str) (ind step final : Int) (outs : List Str)
    (h1 : -9223372036854775808 ≤ ind) (h2 : ind ≤ 9223372036854775807)
    (h : formatLines lines ind step = (final, Except.ok outs)) :
    final = wrap64 (ind + step *
      (((lines.countP fun l =>
          codeStartsWith "OP_IF".toList l || codeStartsWith "OP_NOTIF".toList l : Nat) : Int) -
        ((lines.countP fun l => codeStartsWith "OP_ENDIF".toList l : Nat) : Int))) := by
  induction lines generalizing ind outs final with
  | nil =>
    simp only [formatLines, Prod.mk.injEq] at h
    simp [← h.1, wrap64_id ind h1 h2]
  | cons line lines ih =>
    unfold formatLines at h
    split at h
    · simp at h
    next ind1 out hd =>
      have hr := formatDisasm_ok_range line ind step ind1 out h1 h2 hd
      have hstep := formatDisasm_counter line ind step ind1 out h1 h2 hd
      split at h
      next f outs' htl =>
        simp only [Prod.mk.injEq] at h
        have := ih _ _ _ hr.1 hr.2 htl
        rw [← h.1, this, hstep, wrap64_add_left]
        congr 1
        simp only [List.countP_cons]
        split <;> split <;> push_cast <;> ring
      · simp at h

/-! ## The claims on `formatDisasm` -/

/-- C16, the code fails the claim: the line `OP_IFDUP` is no conditional, yet
the test `HasPrefix(code, "OP_IF")` holds for it and the counter goes from 0 to
2; the line `OP_DUP` leaves it unchanged. -/
theorem formatDisasm_ifdup_indents :
    formatDisasm "01:0000: OP_IFDUP".toList 0 2 = (2, Except.ok "  OP_IFDUP".toList) ∧
    formatDisasm "01:0001: OP_DUP".toList 0 2 = (0, Except.ok "  OP_DUP".toList) := by
  decide

/-- C17, the claim as written fails: with the counter at 0 and a step of 2 the
line `OP_ENDIF` lowers the counter to -2, and `strings.Repeat` panics. -/
theorem formatDisasm_negative_repeat_counterexample :
    formatDisasm "00:0001: OP_ENDIF".toList 0 2 =
      (-2, Except.error Fault.negativeRepeatCount) := by
  decide

/-- C17, amended: for a counter and a step that are not negative, the call
panics exactly on a line whose code starts with `OP_ELSE` or `OP_ENDIF` while
the counter is below the step (the count passed to `strings.Repeat` is then
negative); on every other line, and on those lines with a counter of at least
the step, it returns a string. -/
theorem formatDisasm_returns (line : Str) (ind step : Int)
    (h0 : 0 ≤ ind) (h1 : ind ≤ maxInt) (hs0 : 0 ≤ step) (hs1 : step ≤ maxInt) :
    (((codeStartsWith "OP_ELSE".toList line || codeStartsWith "OP_ENDIF".toList line) = true ∧
        ind < step) →
      (formatDisasm line ind step).2 = Except.error Fault.negativeRepeatCount) ∧
    (¬ ((codeStartsWith "OP_ELSE".toList line || codeStartsWith "OP_ENDIF".toList line) = true ∧
        ind < step) →
      ∃ out, (formatDisasm line ind step).2 = Except.ok out) := by
  unfold maxInt at h1 hs1
  unfold formatDisasm codeStartsWith
  cases hc : codeOf line with
  | none => simp
  | some code =>
    simp only []
    cases hb : (HasPrefix code "OP_ELSE".toList || HasPrefix code "OP_ENDIF".toList)
    · simp [Repeat, h0, not_lt.2 h0]
    · have hw : wrap64 (ind - step) = ind - step := wrap64_id _ (by omega) (by omega)
      simp only [if_true, hw, Repeat, true_and]
      constructor
      · intro hlt
        have : ind - step < 0 := by omega
        simp [this]
      · intro hge
        have : ¬ ind - step < 0 := by omega
        simp [this]

/-- The line `OP_ENDIF` with the counter at 2 and a step of 2 returns. -/
theorem formatDisasm_returns_witness :
    ∃ out, (formatDisasm "00:0002: OP_ENDIF".toList 2 2).2 = Except.ok out :=
  (formatDisasm_returns "00:0002: OP_ENDIF".toList 2 2 (by decide) (by decide) (by decide)
    (by decide)).2 (by decide)

/-- C18, the claim as written fails: from a counter of 1 and a step of the
largest `int`, one `OP_IF` line leaves the counter at the smallest `int`, not at
`1 + step`. -/
theorem formatLines_overflow_counterexample :
    formatLines ["00:0000: OP_IF".toList] 1 9223372036854775807 =
      (-9223372036854775808, Except.ok ["   OP_IF".toList]) ∧
    (1 : Int) + 9223372036854775807 *
      ((opening ["00:0000: OP_IF".toList] : Int) - (closing ["00:0000: OP_IF".toList] : Int)) =
      9223372036854775808 := by
  decide

/-- C18, amended: when the fold returns, the counter is left at
`initial + step * (opening - closing)` computed in 64-bit arithmetic, where
`opening` counts the lines whose code starts with `OP_IF` or `OP_NOTIF` and
`closing` those whose code starts with `OP_ENDIF`; it is that number itself
when the number fits `int`, and it is the initial value when `opening` and
`closing` are equal. `OP_ELSE` lines and lines without a code change nothing. -/
theorem formatLines_indentation (lines : List Str) (ind step final : Int)
    (outs : List Str)
    (h1 : -9223372036854775808 ≤ ind) (h2 : ind ≤ 9223372036854775807)
    (h : formatLines lines ind step = (final, Except.ok outs)) :
    final = wrap64 (ind + step * ((opening lines : Int) - (closing lines : Int))) ∧
    (-9223372036854775808 ≤ ind + step * ((opening lines : Int) - (closing lines : Int)) →
      ind + step * ((opening lines : Int) - (closing lines : Int)) ≤ 9223372036854775807 →
      final = ind + step * ((opening lines : Int) - (closing lines : Int))) ∧
    (opening lines = closing lines → final = ind) := by
  have hf := formatLines_counter lines ind step final outs h1 h2 h
  refine ⟨hf, fun ha hb => ?_, fun heq => ?_⟩
  · rw [hf]
    exact wrap64_id _ ha hb
  · rw [hf]
    unfold opening closing at heq
    rw [heq, sub_self, mul_zero, add_zero]
    exact wrap64_id _ h1 h2

/-- A balanced conditional, folded from a counter of 0 with a step of 2. -/
theorem formatLines_indentation_witness :
    (0 : Int) = wrap64 (0 + 2 *
      ((opening ["00:0000: OP_IF".toList, "00:0001: OP_DUP".toList, "00:0002: OP_ELSE".toList,
          "00:0003: OP_DROP".toList, "00:0004: OP_ENDIF".toList] : Int) -
        (closing ["00:0000: OP_IF".toList, "00:0001: OP_DUP".toList, "00:0002: OP_ELSE".toList,
          "00:0003: OP_DROP".toList, "00:0004: OP_ENDIF".toList] : Int))) :=
  (formatLines_indentation
    ["00:0000: OP_IF".toList, "00:0001: OP_DUP".toList, "00:0002: OP_ELSE".toList,
      "00:0003: OP_DROP".toList, "00:0004: OP_ENDIF".toList] 0 2 0
    ["  OP_IF".toList, "    OP_DUP".toList, "  OP_ELSE".toList, "    OP_DROP".toList,
      "  OP_ENDIF".toList]
    (by decide) (by decide) (by decide)).1

/-! ## The claim on the line navigation -/

theorem find?_earliest (p : codeLine → Bool) (cls : codeLines)
    (hex : ∃ l ∈ cls, p l = true) :
    ∃ x, cls.find? p = some x ∧ Earliest p cls x := by
  cases hf : cls.find? p with
  | none =>
    obtain ⟨l, hl, hp⟩ := hex
    exact absurd hp (List.find?_eq_none.1 hf l hl)
  | some x =>
    obtain ⟨hx, pre, post, hcls, hpre⟩ := List.find?_eq_some.1 hf
    exact ⟨x, rfl, pre, post, hcls, hx, fun y hy => by simpa using hpre y hy⟩

theorem find?_reverse_latest (p : codeLine → Bool) (cls : codeLines)
    (hex : ∃ l ∈ cls, p l = true) :
    ∃ x, cls.reverse.find? p = some x ∧ Latest p cls x := by
  obtain ⟨x, hf, pre, post, hcls, hx, hpre⟩ := find?_earliest p cls.reverse
    (by
      obtain ⟨l, hl, hp⟩ := hex
      exact ⟨l, List.mem_reverse.2 hl, hp⟩)
  refine ⟨x, hf, post.reverse, pre.reverse, ?_, hx, fun y hy => hpre y (List.mem_reverse.1 hy)⟩
  have := congrArg List.reverse hcls
  simpa using this

/-- C19: on a list with a line that is no separator, `first` returns the
earliest such line and `last` the latest. `next` returns the earliest line
that is no separator and has `lineIdx > curLine` when there is one, and the
final element of the list otherwise; `previous` returns the latest line that
is no separator and has `lineIdx < curLine` when there is one, and the first
element of the list otherwise. On the empty list all four return the zero
`codeLine`. -/
theorem codeLines_navigation (cls : codeLines) (curLine : Int) :
    ((∃ l ∈ cls, l.isSeparator = false) →
      Earliest (fun l => !l.isSeparator) cls (codeLines.first cls) ∧
      Latest (fun l => !l.isSeparator) cls (codeLines.last cls)) ∧
    ((∃ l ∈ cls, (!l.isSeparator && decide (l.lineIdx > curLine)) = true) →
      Earliest (fun l => !l.isSeparator && decide (l.lineIdx > curLine)) cls
        (codeLines.next cls curLine)) ∧
    ((∀ l ∈ cls, (!l.isSeparator && decide (l.lineIdx > curLine)) = false) →
      codeLines.next cls curLine = cls.getLastD codeLine.zero) ∧
    ((∃ l ∈ cls, (!l.isSeparator && decide (l.lineIdx < curLine)) = true) →
      Latest (fun l => !l.isSeparator && decide (l.lineIdx < curLine)) cls
        (codeLines.previous cls curLine)) ∧
    ((∀ l ∈ cls, (!l.isSeparator && decide (l.lineIdx < curLine)) = false) →
      codeLines.previous cls curLine = cls.headD codeLine.zero) ∧
    (codeLines.first [] = codeLine.zero ∧ codeLines.last [] = codeLine.zero ∧
      codeLines.next [] curLine = codeLine.zero ∧
      codeLines.previous [] curLine = codeLine.zero) := by
  have hrev : ∀ (c : codeLine) (t : codeLines), ∃ d u, (c :: t).reverse = d :: u ∧
      (c :: t).getLastD codeLine.zero = d := by
    intro c t
    cases hr : (c :: t).reverse with
    | nil => simp at hr
    | cons d u =>
      refine ⟨d, u, rfl, ?_⟩
      have h1 : (c :: t) = (d :: u).reverse := by rw [← hr, List.reverse_reverse]
      rw [h1, List.getLastD_eq_getLast?]
      simp
  refine ⟨?_, ?_, ?_, ?_, ?_, rfl, rfl, rfl, rfl⟩
  · intro hex
    have hex' : ∃ l ∈ cls, (fun l : codeLine => !l.isSeparator) l = true := by
      obtain ⟨l, hl, hs⟩ := hex
      exact ⟨l, hl, by simp [hs]⟩
    obtain ⟨x, hf, hx⟩ := find?_earliest _ cls hex'
    obtain ⟨y, hg, hy⟩ := find?_reverse_latest _ cls hex'
    cases cls with
    | nil => simp at hf
    | cons c t =>
      obtain ⟨d, u, hdu, _⟩ := hrev c t
      constructor
      · simp only [codeLines.first, hf]
        exact hx
      · simp only [codeLines.last, hdu]
        rw [hdu] at hg
        simp only [hg]
        exact hy
  · intro hex
    obtain ⟨x, hf, hx⟩ := find?_earliest _ cls hex
    cases cls with
    | nil => simp at hf
    | cons c t =>
      obtain ⟨d, u, hdu, _⟩ := hrev c t
      simp only [codeLines.next, hdu, hf]
      exact hx
  · intro hall
    cases cls with
    | nil => rfl
    | cons c t =>
      obtain ⟨d, u, hdu, hlast⟩ := hrev c t
      have hf : (c :: t).find? (fun l => !l.isSeparator && decide (l.lineIdx > curLine)) =
          none := List.find?_eq_none.2 fun l hl => by simp [hall l hl]
      simp only [codeLines.next, hdu, hf, hlast]
  · intro hex
    obtain ⟨x, hf, hx⟩ := find?_reverse_latest _ cls hex
    cases cls with
    | nil => simp at hf
    | cons c t =>
      simp only [codeLines.previous, hf]
      exact hx
  · intro hall
    cases cls with
    | nil => rfl
    | cons c t =>
      have hf : (c :: t).reverse.find?
          (fun l => !l.isSeparator && decide (l.lineIdx < curLine)) = none :=
        List.find?_eq_none.2 fun l hl => by simp [hall l (List.mem_reverse.1 hl)]
      simp only [codeLines.previous, hf, List.headD_cons]

/-- Four lines, the first and the last separators: `first`, `last`, `next` and
`previous` evaluated. -/
theorem codeLines_navigation_example :
    codeLines.first [⟨true, 0, []⟩, ⟨false, 1, "a".toList⟩, ⟨false, 2, "b".toList⟩,
        ⟨true, 3, []⟩] = ⟨false, 1, "a".toList⟩ ∧
    codeLines.last [⟨true, 0, []⟩, ⟨false, 1, "a".toList⟩, ⟨false, 2, "b".toList⟩,
        ⟨true, 3, []⟩] = ⟨false, 2, "b".toList⟩ ∧
    codeLines.next [⟨true, 0, []⟩, ⟨false, 1, "a".toList⟩, ⟨false, 2, "b".toList⟩,
        ⟨true, 3, []⟩] 1 = ⟨false, 2, "b".toList⟩ ∧
    codeLines.next [⟨true, 0, []⟩, ⟨false, 1, "a".toList⟩, ⟨false, 2, "b".toList⟩,
        ⟨true, 3, []⟩] 2 = ⟨true, 3, []⟩ ∧
    codeLines.previous [⟨true, 0, []⟩, ⟨false, 1, "a".toList⟩, ⟨false, 2, "b".toList⟩,
        ⟨true, 3, []⟩] 2 = ⟨false, 1, "a".toList⟩ ∧
    codeLines.previous [⟨true, 0, []⟩, ⟨false, 1, "a".toList⟩, ⟨false, 2, "b".toList⟩,
        ⟨true, 3, []⟩] 1 = ⟨true, 0, []⟩ := by
  decide

end Opscript
